import Mathlib

/-!
Verification of the deferred-value resolution engine, cross-boundary
reference bridge, connection-rule graph, and the ELBv2 target-group
validation logic of this repository.

The target-group definitions (`TG` namespace) are shallow embeddings of
`TargetGroupBase.validateTargetGroup` and
`TargetGroupBase.addLoadBalancerTarget` from the ELBv2 base target-group
source file.  The connection-graph (`CG`) and resolver/reference-bridge
(`RB`) namespaces embed components whose implementation is not part of the
source snapshot (only their test suites are); those definitions are
modelled from the specification, as indicated by their doc comments.
-/

namespace Spec2Proof

/-! ## Shared list helpers -/

/-- Insert an element into a list unless it is already present. -/
def insertIfAbsent {α : Type} [DecidableEq α] (l : List α) (x : α) : List α :=
  if x ∈ l then l else x :: l

/-- Insert each element of `xs` into `l`, skipping duplicates. -/
def foldIns {α : Type} [DecidableEq α] (l : List α) (xs : List α) : List α :=
  xs.foldl insertIfAbsent l

theorem mem_insertIfAbsent {α : Type} [DecidableEq α] (l : List α) (x a : α) :
    a ∈ insertIfAbsent l x ↔ a = x ∨ a ∈ l := by
  unfold insertIfAbsent
  by_cases h : x ∈ l
  · simp only [if_pos h]
    constructor
    · intro ha; exact Or.inr ha
    · intro ha
      rcases ha with ha | ha
      · rw [ha]; exact h
      · exact ha
  · simp [if_neg h]

theorem self_mem_insertIfAbsent {α : Type} [DecidableEq α] (l : List α) (x : α) :
    x ∈ insertIfAbsent l x := by
  rw [mem_insertIfAbsent]; exact Or.inl rfl

theorem insertIfAbsent_of_mem {α : Type} [DecidableEq α] {l : List α} {x : α} (h : x ∈ l) :
    insertIfAbsent l x = l := by
  unfold insertIfAbsent; exact if_pos h

theorem nodup_insertIfAbsent {α : Type} [DecidableEq α] (l : List α) (x : α)
    (h : l.Nodup) : (insertIfAbsent l x).Nodup := by
  unfold insertIfAbsent
  by_cases hx : x ∈ l
  · simpa [if_pos hx] using h
  · simp only [if_neg hx]
    exact List.Nodup.cons hx h

theorem mem_foldIns {α : Type} [DecidableEq α] (xs : List α) (l : List α) (a : α) :
    a ∈ foldIns l xs ↔ a ∈ l ∨ a ∈ xs := by
  induction xs generalizing l with
  | nil => simp [foldIns]
  | cons x xs ih =>
    unfold foldIns at ih ⊢
    simp only [List.foldl_cons]
    rw [ih (insertIfAbsent l x), mem_insertIfAbsent]
    constructor
    · rintro ((h | h) | h)
      · exact Or.inr (by rw [h]; exact List.mem_cons_self x xs)
      · exact Or.inl h
      · exact Or.inr (List.mem_cons_of_mem x h)
    · rintro (h | h)
      · exact Or.inl (Or.inr h)
      · rcases List.mem_cons.mp h with h | h
        · exact Or.inl (Or.inl h)
        · exact Or.inr h

theorem nodup_foldIns {α : Type} [DecidableEq α] (xs : List α) (l : List α)
    (h : l.Nodup) : (foldIns l xs).Nodup := by
  induction xs generalizing l with
  | nil => simpa [foldIns] using h
  | cons x xs ih =>
    unfold foldIns
    simp only [List.foldl_cons]
    exact ih (insertIfAbsent l x) (nodup_insertIfAbsent l x h)

theorem count_eq_one_of_mem_nodup {α : Type} [BEq α] [LawfulBEq α] {l : List α} {a : α}
    (hnd : l.Nodup) (hm : a ∈ l) : l.count a = 1 := by
  induction l with
  | nil => simp at hm
  | cons b l ih =>
    rcases List.mem_cons.mp hm with h | h
    · subst h
      have hnotin : a ∉ l := (List.nodup_cons.mp hnd).1
      rw [List.count_cons, List.count_eq_zero_of_not_mem hnotin]
      simp
    · have hbl := List.nodup_cons.mp hnd
      have hne : ¬ (a == b) = true := by
        intro hb
        have hab : a = b := eq_of_beq hb
        rw [hab] at h
        exact hbl.1 h
      rw [List.count_cons, ih hbl.2 h]
      have hba : ¬ b = a := by
        intro hba
        exact hne (by rw [hba]; exact beq_self_eq_true a)
      simp [hne, hba]

/-! ## TG: target-group validation and registration (embedded from source) -/

namespace TG

/-- The kinds of load-balancing target, from the ELBv2 `TargetType` enum. -/
inductive TargetType where
  | INSTANCE
  | IP
  | LAMBDA
  | ALB
  deriving DecidableEq

/-- A configured target-group name: either an unresolved token (deferred
placeholder, carrying only its registry id) or a literal string.  Mirrors
the `string-or-Token` value of the `name` property handed to
`CfnTargetGroup`. -/
inductive NameValue where
  | token (id : Nat)
  | lit (s : String)
  deriving DecidableEq

/-- Embedding of `cdk.Token.isUnresolved` applied to the optional
target-group name: true exactly on unresolved tokens (and false on
`undefined`, as in the source). -/
def isUnresolvedName : Option NameValue → Bool
  | some (.token _) => true
  | _ => false

/-- The mutable state of `TargetGroupBase` relevant to validation and
target registration: the tracked target type, whether a VPC was supplied,
the configured name, and the `targetsJson` array (entries abstracted to
opaque ids). -/
structure TGState where
  targetType : Option TargetType
  vpc : Bool
  name : Option NameValue
  targetsJson : List Nat
  deriving DecidableEq

def vpcErrorMsg : String := "vpc is required for a non-Lambda TargetGroup"

/-- Embedding of `TargetGroupBase.validateTargetGroup`.  The warning for an
empty group goes to the annotations channel, not the returned list, so it
is not part of the result.  The name checks run only when the name is a
literal string: the source guard is
`!cdk.Token.isUnresolved(targetGroupName) && targetGroupName !== undefined`. -/
def validateTargetGroup (st : TGState) : List String :=
  let ret0 : List String := []
  let ret1 :=
    if st.targetType ≠ some TargetType.LAMBDA ∧ st.vpc = false
    then ret0 ++ [vpcErrorMsg] else ret0
  match st.name with
  | some (.lit n) =>
    let ret2 :=
      if n.length > 32
      then ret1 ++ ["Target group name: " ++ n ++ " can have a maximum of 32 characters."]
      else ret1
    let ret3 :=
      if n.startsWith "-" ∨ n.endsWith "-"
      then ret2 ++ ["Target group name: " ++ n ++ " must not begin or end with a hyphen."]
      else ret2
    let ret4 :=
      if ¬ (n.length > 0 ∧ n.toList.all fun c => c.isAlphanum || c == '-')
      then ret3 ++ ["Target group name: " ++ n ++ " must contain only alphanumeric characters or hyphens."]
      else ret3
    ret4
  | _ => ret1

/-- The argument record of `addLoadBalancerTarget`
(`LoadBalancerTargetProps`): a target type and an optional JSON entry
(abstracted to an opaque id). -/
structure LBTargetProps where
  targetType : TargetType
  targetJson : Option Nat
  deriving DecidableEq

def mixedTypeMsg : String :=
  "Already have a of type A, adding B; make all targets the same type."

def lambdaLimitMsg : String :=
  "TargetGroup can only contain one LAMBDA target. Create a new TargetGroup."

/-- Embedding of `TargetGroupBase.addLoadBalancerTarget`.  A thrown
`ValidationError` is modelled as `some message` together with the state at
the throw point (TypeScript mutations made before the throw are kept: the
source assigns `this.targetType = props.targetType` before the LAMBDA
check, so at that check `this.targetType` equals `props.targetType` and
the condition is stated on `props.targetType` directly). -/
def addLoadBalancerTarget (st : TGState) (props : LBTargetProps) :
    TGState × Option String :=
  if st.targetType ≠ none ∧ st.targetType ≠ some props.targetType then
    (st, some mixedTypeMsg)
  else if props.targetType = TargetType.LAMBDA ∧ st.targetsJson.length ≥ 1 then
    ({ st with targetType := some props.targetType }, some lambdaLimitMsg)
  else
    match props.targetJson with
    | some j => ({ st with targetType := some props.targetType,
                           targetsJson := st.targetsJson ++ [j] }, none)
    | none => ({ st with targetType := some props.targetType }, none)

/-- Run a sequence of `addLoadBalancerTarget` calls, stopping at the first
thrown error. -/
def runAdds (st : TGState) : List LBTargetProps → TGState × Option String
  | [] => (st, none)
  | c :: cs =>
    match addLoadBalancerTarget st c with
    | (st1, none) => runAdds st1 cs
    | (st1, some e) => (st1, some e)

/-- The registration invariant of a target group: a LAMBDA group holds at
most one registered target, and a group with no tracked type has no
registered targets. -/
abbrev RegInvariant (st : TGState) : Prop :=
  (st.targetType = some TargetType.LAMBDA → st.targetsJson.length ≤ 1) ∧
  (st.targetType = none → st.targetsJson = [])

theorem runAdds_types {cs : List LBTargetProps} :
    ∀ {st st2 : TGState} {T : TargetType}, st.targetType = some T →
      runAdds st cs = (st2, none) → (∀ c ∈ cs, c.targetType = T) ∧ st2.targetType = some T := by
  induction cs with
  | nil =>
    intro st st2 T hT hrun
    unfold runAdds at hrun
    refine ⟨by simp, ?_⟩
    have : st = st2 := congrArg Prod.fst hrun
    rw [← this]; exact hT
  | cons c cs ih =>
    intro st st2 T hT hrun
    unfold runAdds at hrun
    cases hadd : addLoadBalancerTarget st c with
    | mk st1 err =>
      cases err with
      | some e => rw [hadd] at hrun; simp at hrun
      | none =>
        rw [hadd] at hrun
        simp only at hrun
        have hct : c.targetType = T ∧ st1.targetType = some c.targetType := by
          unfold addLoadBalancerTarget at hadd
          by_cases hfirst : st.targetType ≠ none ∧ st.targetType ≠ some c.targetType
          · rw [if_pos hfirst] at hadd; simp at hadd
          · rw [if_neg hfirst] at hadd
            push_neg at hfirst
            have hTT : st.targetType = some c.targetType := by
              rcases Classical.em (st.targetType = none) with h0 | h0
              · rw [h0] at hT; exact absurd hT (by simp)
              · exact hfirst h0
            have hceq : c.targetType = T := by
              rw [hT] at hTT; exact (Option.some_inj.mp hTT).symm
            refine ⟨hceq, ?_⟩
            by_cases hsec : (c.targetType = TargetType.LAMBDA ∧ st.targetsJson.length ≥ 1)
            · rw [if_pos hsec] at hadd
              simp at hadd
            · rw [if_neg hsec] at hadd
              cases hj : c.targetJson with
              | some j =>
                rw [hj] at hadd
                simp only at hadd
                have hfst := congrArg Prod.fst hadd
                simp only at hfst
                rw [← hfst]
              | none =>
                rw [hj] at hadd
                simp only at hadd
                have hfst := congrArg Prod.fst hadd
                simp only at hfst
                rw [← hfst]
        have hst1 : st1.targetType = some T := by rw [hct.2, hct.1]
        have hres := ih hst1 hrun
        refine ⟨?_, hres.2⟩
        intro c2 hc2
        rcases List.mem_cons.mp hc2 with h | h
        · rw [h]; exact hct.1
        · exact hres.1 c2 h


theorem addTarget_ok_targetType (st : TGState) (c : LBTargetProps)
    (h : (addLoadBalancerTarget st c).2 = none) :
    (addLoadBalancerTarget st c).1.targetType = some c.targetType := by
  by_cases hfirst : st.targetType ≠ none ∧ st.targetType ≠ some c.targetType
  · have heq : addLoadBalancerTarget st c = (st, some mixedTypeMsg) := by
      unfold addLoadBalancerTarget; rw [if_pos hfirst]
    rw [heq] at h; simp at h
  · by_cases hsec : (c.targetType = TargetType.LAMBDA ∧ st.targetsJson.length ≥ 1)
    · have heq : addLoadBalancerTarget st c =
          ({ st with targetType := some c.targetType }, some lambdaLimitMsg) := by
        unfold addLoadBalancerTarget; rw [if_neg hfirst, if_pos hsec]
      rw [heq] at h; simp at h
    · cases hj : c.targetJson with
      | some j =>
        have heq : addLoadBalancerTarget st c =
            ({ st with targetType := some c.targetType,
                       targetsJson := st.targetsJson ++ [j] }, none) := by
          unfold addLoadBalancerTarget; rw [if_neg hfirst, if_neg hsec, hj]
        rw [heq]
      | none =>
        have heq : addLoadBalancerTarget st c =
            ({ st with targetType := some c.targetType }, none) := by
          unfold addLoadBalancerTarget; rw [if_neg hfirst, if_neg hsec, hj]
        rw [heq]

/-- C10: every successful `addLoadBalancerTarget` call preserves the
invariant that all directly registered targets share one target type (a
successful run of calls forces every call to carry the same type) and that
a LAMBDA group registers at most one target; a call that fails throws a
`ValidationError` and leaves the registered target list unchanged. -/
theorem c10_add_target_invariant :
    (∀ (st : TGState) (c : LBTargetProps), RegInvariant st →
        (addLoadBalancerTarget st c).2 = none →
        RegInvariant (addLoadBalancerTarget st c).1) ∧
    (∀ (st : TGState) (c : LBTargetProps),
        (addLoadBalancerTarget st c).2 ≠ none →
        (addLoadBalancerTarget st c).1.targetsJson = st.targetsJson) ∧
    (∀ (st st2 : TGState) (cs : List LBTargetProps),
        runAdds st cs = (st2, none) →
        ∀ c1 ∈ cs, ∀ c2 ∈ cs, c1.targetType = c2.targetType) := by
  refine ⟨?_, ?_, ?_⟩
  · intro st c _ hok
    by_cases hfirst : st.targetType ≠ none ∧ st.targetType ≠ some c.targetType
    · have heq : addLoadBalancerTarget st c = (st, some mixedTypeMsg) := by
        unfold addLoadBalancerTarget; rw [if_pos hfirst]
      rw [heq] at hok; simp at hok
    · by_cases hsec : (c.targetType = TargetType.LAMBDA ∧ st.targetsJson.length ≥ 1)
      · have heq : addLoadBalancerTarget st c =
            ({ st with targetType := some c.targetType }, some lambdaLimitMsg) := by
          unfold addLoadBalancerTarget; rw [if_neg hfirst, if_pos hsec]
        rw [heq] at hok; simp at hok
      · cases hj : c.targetJson with
        | some j =>
          have heq : addLoadBalancerTarget st c =
              ({ st with targetType := some c.targetType,
                         targetsJson := st.targetsJson ++ [j] }, none) := by
            unfold addLoadBalancerTarget; rw [if_neg hfirst, if_neg hsec, hj]
          rw [heq]
          constructor
          · intro hlam
            simp only [Option.some_inj] at hlam
            have hlen : ¬ st.targetsJson.length ≥ 1 := fun hge => hsec ⟨hlam, hge⟩
            show (st.targetsJson ++ [j]).length ≤ 1
            simp only [List.length_append, List.length_cons, List.length_nil]
            omega
          · intro hnone; simp at hnone
        | none =>
          have heq : addLoadBalancerTarget st c =
              ({ st with targetType := some c.targetType }, none) := by
            unfold addLoadBalancerTarget; rw [if_neg hfirst, if_neg hsec, hj]
          rw [heq]
          constructor
          · intro hlam
            simp only [Option.some_inj] at hlam
            have hlen : ¬ st.targetsJson.length ≥ 1 := fun hge => hsec ⟨hlam, hge⟩
            show st.targetsJson.length ≤ 1
            omega
          · intro hnone; simp at hnone
  · intro st c herr
    by_cases hfirst : st.targetType ≠ none ∧ st.targetType ≠ some c.targetType
    · have heq : addLoadBalancerTarget st c = (st, some mixedTypeMsg) := by
        unfold addLoadBalancerTarget; rw [if_pos hfirst]
      rw [heq]
    · by_cases hsec : (c.targetType = TargetType.LAMBDA ∧ st.targetsJson.length ≥ 1)
      · have heq : addLoadBalancerTarget st c =
            ({ st with targetType := some c.targetType }, some lambdaLimitMsg) := by
          unfold addLoadBalancerTarget; rw [if_neg hfirst, if_pos hsec]
        rw [heq]
      · cases hj : c.targetJson with
        | some j =>
          have heq : addLoadBalancerTarget st c =
              ({ st with targetType := some c.targetType,
                         targetsJson := st.targetsJson ++ [j] }, none) := by
            unfold addLoadBalancerTarget; rw [if_neg hfirst, if_neg hsec, hj]
          rw [heq] at herr; simp at herr
        | none =>
          have heq : addLoadBalancerTarget st c =
              ({ st with targetType := some c.targetType }, none) := by
            unfold addLoadBalancerTarget; rw [if_neg hfirst, if_neg hsec, hj]
          rw [heq] at herr; simp at herr
  · intro st st2 cs hrun c1 hc1 c2 hc2
    cases cs with
    | nil => simp at hc1
    | cons c cs =>
      unfold runAdds at hrun
      cases hadd : addLoadBalancerTarget st c with
      | mk st1 err =>
        cases err with
        | some e => rw [hadd] at hrun; simp at hrun
        | none =>
          rw [hadd] at hrun
          simp only at hrun
          have hst1 : st1.targetType = some c.targetType := by
            have := addTarget_ok_targetType st c (by rw [hadd])
            rw [hadd] at this; exact this
          have hall := runAdds_types hst1 hrun
          have htype : ∀ cc ∈ c :: cs, cc.targetType = c.targetType := by
            intro cc hcc
            rcases List.mem_cons.mp hcc with h | h
            · rw [h]
            · exact hall.1 cc h
          rw [htype c1 hc1, htype c2 hc2]

/-- Witness for C10 at concrete inputs: a successful LAMBDA registration
into an empty group preserves the invariant; a second LAMBDA registration
throws and leaves the target list unchanged; a successful run of two adds
carries a single target type. -/
theorem c10_witness :
    (RegInvariant ⟨none, true, none, []⟩ ∧
     (addLoadBalancerTarget ⟨none, true, none, []⟩ ⟨TargetType.LAMBDA, some 7⟩).2 = none ∧
     RegInvariant (addLoadBalancerTarget ⟨none, true, none, []⟩ ⟨TargetType.LAMBDA, some 7⟩).1) ∧
    ((addLoadBalancerTarget ⟨some TargetType.LAMBDA, true, none, [7]⟩ ⟨TargetType.LAMBDA, some 8⟩).2 ≠ none ∧
     (addLoadBalancerTarget ⟨some TargetType.LAMBDA, true, none, [7]⟩ ⟨TargetType.LAMBDA, some 8⟩).1.targetsJson = [7]) ∧
    (runAdds (⟨none, true, none, []⟩ : TGState)
          [⟨TargetType.IP, some 1⟩, ⟨TargetType.IP, some 2⟩]
        = ((⟨some TargetType.IP, true, none, [1, 2]⟩ : TGState), none) ∧
     ∀ c1 ∈ [(⟨TargetType.IP, some 1⟩ : LBTargetProps), ⟨TargetType.IP, some 2⟩],
       ∀ c2 ∈ [(⟨TargetType.IP, some 1⟩ : LBTargetProps), ⟨TargetType.IP, some 2⟩],
         c1.targetType = c2.targetType) := by
  refine ⟨⟨by decide, by decide,
      c10_add_target_invariant.1 _ _ (by decide) (by decide)⟩,
    ⟨by decide, c10_add_target_invariant.2.1 _ _ (by decide)⟩,
    ⟨by decide,
      c10_add_target_invariant.2.2 (⟨none, true, none, []⟩ : TGState)
        (⟨some TargetType.IP, true, none, [1, 2]⟩ : TGState)
        [⟨TargetType.IP, some 1⟩, ⟨TargetType.IP, some 2⟩] (by decide)⟩⟩

/-- C9: when the configured target-group name is an unresolved token,
`validateTargetGroup` performs none of the name checks and reports no name
validation error — the result is exactly the (name-independent) VPC check.
The token carries no resolved value, so the result is independent of
whatever the placeholder later resolves to. -/
theorem c9_unresolved_name_skips_checks (st : TGState)
    (h : isUnresolvedName st.name = true) :
    validateTargetGroup st =
      if st.targetType ≠ some TargetType.LAMBDA ∧ st.vpc = false
      then [vpcErrorMsg] else [] := by
  unfold validateTargetGroup
  cases hn : st.name with
  | none => rw [hn] at h; simp [isUnresolvedName] at h
  | some nv =>
    cases nv with
    | token i => simp
    | lit s => rw [hn] at h; simp [isUnresolvedName] at h

/-- Witness for C9 at a concrete state whose name is an unresolved token:
validation yields only the VPC error. -/
theorem c9_witness :
    isUnresolvedName (some (NameValue.token 3)) = true ∧
    validateTargetGroup ⟨some TargetType.IP, false, some (NameValue.token 3), []⟩ =
      if (⟨some TargetType.IP, false, some (NameValue.token 3), []⟩ : TGState).targetType
            ≠ some TargetType.LAMBDA ∧
          (⟨some TargetType.IP, false, some (NameValue.token 3), []⟩ : TGState).vpc = false
      then [vpcErrorMsg] else [] :=
  ⟨by decide, c9_unresolved_name_skips_checks _ (by decide)⟩

end TG

/-! ## CG: the connection-rule graph (modelled from the spec) -/

namespace CG

/-- Modelled from the spec: the tri-state outbound policy of a foreign
(imported) peer entity: allow-all / restricted / unknown. -/
inductive TriState where
  | allowAll
  | restricted
  | unknown
  deriving DecidableEq

/-- Modelled from the spec: a rule-bearing peer is either locally writable
(its rule containers can be mutated) or foreign with a known-or-unknown
outbound policy. -/
inductive PeerKind where
  | writable
  | foreign (outbound : TriState)
  deriving DecidableEq

/-- Modelled from the spec: an addressable entity with an identity and a
capability tag. -/
structure Entity where
  eid : Nat
  kind : PeerKind
  deriving DecidableEq

/-- An egress rule may be attached to an entity iff it is writable, or
foreign but explicitly known to restrict its own outbound traffic. -/
def canEgress (e : Entity) : Bool :=
  match e.kind with
  | .writable => true
  | .foreign .restricted => true
  | .foreign _ => false

/-- An ingress rule may be attached to an entity iff it is writable. -/
def canIngress (e : Entity) : Bool :=
  match e.kind with
  | .writable => true
  | .foreign _ => false

/-- A connection rule, recorded as (owner entity id, peer entity id, port).
Direction is given by the container (ingress or egress list) holding it. -/
abbrev Rule := Nat × Nat × Nat

/-- Modelled from the spec: the connection-graph state — peer sets (set id
to current members), the ingress and egress rule containers, the history
of recorded allows (for late-member replay), and the currently-processing
pair set (the recursion guard). -/
structure GState where
  sets : List (Nat × List Entity)
  ingress : List Rule
  egress : List Rule
  recorded : List (Nat × Nat × Nat)
  inProgress : List (Nat × Nat)
  deriving DecidableEq

/-- The egress rules generated for a directed allow from members `ms` to
members `md` on port `p`: one per ordered member pair whose source side
may carry an egress rule. -/
def egressAdds (ms md : List Entity) (p : Nat) : List Rule :=
  ms.flatMap fun s => if canEgress s then md.map (fun d => (s.eid, d.eid, p)) else []

/-- The ingress rules generated for a directed allow from members `ms` to
members `md` on port `p`: one per ordered member pair whose destination
side may carry an ingress rule. -/
def ingressAdds (ms md : List Entity) (p : Nat) : List Rule :=
  md.flatMap fun d => if canIngress d then ms.map (fun s => (d.eid, s.eid, p)) else []

/-- Apply the rules of a directed allow to the state, deduplicating by the
(owner, peer, port) triple. -/
def applyRules (ms md : List Entity) (p : Nat) (st : GState) : GState :=
  { st with egress := foldIns st.egress (egressAdds ms md p),
            ingress := foldIns st.ingress (ingressAdds ms md p) }

def lookupSet (st : GState) (sid : Nat) : List Entity :=
  (st.sets.lookup sid).getD []

/-- Modelled from the spec: `allow(sourceSet, destSet, port)`.  The guard
tracks the currently-processing (S, D) pair: on entry the pair is pushed,
the egress/ingress rules for every current member pair are inserted
(deduplicated), the allow is recorded for later member replay, and the
re-entrant symmetric API call (which in the implementation arrives through
the peer connectable calling back) is made — it finds the pair in progress
and returns without recursing further.  On exit the pair is popped.  The
definition is total (accepted by well-founded recursion), which is the
termination guarantee. -/
def allow (S D p : Nat) (st : GState) : GState :=
  if h : (S, D) ∈ st.inProgress then st
  else
    let st1 := applyRules (lookupSet st S) (lookupSet st D) p
      { st with inProgress := (S, D) :: st.inProgress,
                recorded := insertIfAbsent st.recorded (S, D, p) }
    let st2 := allow S D p st1
    { st2 with inProgress := st2.inProgress.erase (S, D) }
termination_by (if (S, D) ∈ st.inProgress then 1 else 2 : Nat)
decreasing_by
  simp only [applyRules]
  rw [if_neg h, if_pos (List.mem_cons_self _ _)]
  omega

/-- Modelled from the spec: `addMember(set, newEntity)` appends the entity
to the set and replays every recorded allow the set has participated in
onto the new member (rule inserts stay deduplicated). -/
def addMember (sid : Nat) (x : Entity) (st : GState) : GState :=
  let st1 := { st with sets := st.sets.map fun e => if e.1 = sid then (e.1, e.2 ++ [x]) else e }
  st.recorded.foldl
    (fun acc r =>
      let acc1 := if r.1 = sid then applyRules [x] (lookupSet acc r.2.1) r.2.2 acc else acc
      if r.2.1 = sid then applyRules (lookupSet acc1 r.1) [x] r.2.2 acc1 else acc1)
    st1

/-- An initial graph state: set 0 with members `A`, set 1 with members `B`,
no rules, no recorded allows, nothing in progress. -/
def initState (A B : List Entity) : GState :=
  ⟨[(0, A), (1, B)], [], [], [], []⟩

theorem allow_of_inProgress {S D p : Nat} {st : GState}
    (h : (S, D) ∈ st.inProgress) : allow S D p st = st := by
  rw [allow]
  simp [h]

theorem allow_eq {S D p : Nat} {st : GState} (h : (S, D) ∉ st.inProgress) :
    allow S D p st =
      { sets := st.sets,
        ingress := foldIns st.ingress (ingressAdds (lookupSet st S) (lookupSet st D) p),
        egress := foldIns st.egress (egressAdds (lookupSet st S) (lookupSet st D) p),
        recorded := insertIfAbsent st.recorded (S, D, p),
        inProgress := st.inProgress } := by
  rw [allow]
  rw [dif_neg h]
  have hinner : allow S D p
      (applyRules (lookupSet st S) (lookupSet st D) p
        { st with inProgress := (S, D) :: st.inProgress,
                  recorded := insertIfAbsent st.recorded (S, D, p) }) =
      applyRules (lookupSet st S) (lookupSet st D) p
        { st with inProgress := (S, D) :: st.inProgress,
                  recorded := insertIfAbsent st.recorded (S, D, p) } := by
    apply allow_of_inProgress
    simp [applyRules]
  simp only [hinner]
  simp [applyRules]

theorem mem_egressAdds {ms md : List Entity} {p : Nat} {r : Rule} :
    r ∈ egressAdds ms md p ↔
      ∃ s ∈ ms, canEgress s = true ∧ ∃ d ∈ md, r = (s.eid, d.eid, p) := by
  unfold egressAdds
  rw [List.mem_flatMap]
  constructor
  · rintro ⟨s, hs, hr⟩
    by_cases hc : canEgress s = true
    · rw [if_pos hc] at hr
      rcases List.mem_map.mp hr with ⟨d, hd, hdr⟩
      exact ⟨s, hs, hc, d, hd, hdr.symm⟩
    · rw [if_neg hc] at hr
      simp at hr
  · rintro ⟨s, hs, hc, d, hd, hdr⟩
    exact ⟨s, hs, by rw [if_pos hc]; exact List.mem_map.mpr ⟨d, hd, hdr.symm⟩⟩

theorem mem_ingressAdds {ms md : List Entity} {p : Nat} {r : Rule} :
    r ∈ ingressAdds ms md p ↔
      ∃ d ∈ md, canIngress d = true ∧ ∃ s ∈ ms, r = (d.eid, s.eid, p) := by
  unfold ingressAdds
  rw [List.mem_flatMap]
  constructor
  · rintro ⟨d, hd, hr⟩
    by_cases hc : canIngress d = true
    · rw [if_pos hc] at hr
      rcases List.mem_map.mp hr with ⟨s, hs, hsr⟩
      exact ⟨d, hd, hc, s, hs, hsr.symm⟩
    · rw [if_neg hc] at hr
      simp at hr
  · rintro ⟨d, hd, hc, s, hs, hsr⟩
    exact ⟨d, hd, by rw [if_pos hc]; exact List.mem_map.mpr ⟨s, hs, hsr.symm⟩⟩


theorem canEgress_of_writable {e : Entity} (h : e.kind = PeerKind.writable) :
    canEgress e = true := by
  unfold canEgress; rw [h]

theorem canIngress_of_writable {e : Entity} (h : e.kind = PeerKind.writable) :
    canIngress e = true := by
  unfold canIngress; rw [h]

theorem foldIns2_nodup {α : Type} [DecidableEq α] (l1 l2 : List α) :
    (foldIns (foldIns ([] : List α) l1) l2).Nodup :=
  nodup_foldIns _ _ (nodup_foldIns _ _ List.nodup_nil)

theorem foldIns2_count {α : Type} [DecidableEq α] [BEq α] [LawfulBEq α] (l1 l2 : List α) (a : α)
    (h : a ∈ l1 ∨ a ∈ l2) : (foldIns (foldIns ([] : List α) l1) l2).count a = 1 := by
  have hm : a ∈ foldIns (foldIns ([] : List α) l1) l2 := by
    rw [mem_foldIns, mem_foldIns]
    rcases h with h | h
    · exact Or.inl (Or.inr h)
    · exact Or.inr h
  exact count_eq_one_of_mem_nodup (foldIns2_nodup l1 l2) hm

theorem allow_init_state (A B : List Entity) (p : Nat) :
    allow 0 1 p (initState A B) =
      { sets := [(0, A), (1, B)],
        ingress := foldIns [] (ingressAdds A B p),
        egress := foldIns [] (egressAdds A B p),
        recorded := [(0, 1, p)],
        inProgress := [] } := by
  have h := @allow_eq 0 1 p (initState A B) (by simp [initState])
  have hA : lookupSet (initState A B) 0 = A := rfl
  have hB : lookupSet (initState A B) 1 = B := rfl
  rw [h, hA, hB]
  rfl

theorem allow_init_state2 (A B : List Entity) (p : Nat) :
    allow 1 0 p (initState A B) =
      { sets := [(0, A), (1, B)],
        ingress := foldIns [] (ingressAdds B A p),
        egress := foldIns [] (egressAdds B A p),
        recorded := [(1, 0, p)],
        inProgress := [] } := by
  have h := @allow_eq 1 0 p (initState A B) (by simp [initState])
  have hA : lookupSet (initState A B) 0 = A := rfl
  have hB : lookupSet (initState A B) 1 = B := rfl
  rw [h, hB, hA]
  rfl

theorem allow_allow_state (A B : List Entity) (p : Nat) :
    allow 1 0 p (allow 0 1 p (initState A B)) =
      { sets := [(0, A), (1, B)],
        ingress := foldIns (foldIns [] (ingressAdds A B p)) (ingressAdds B A p),
        egress := foldIns (foldIns [] (egressAdds A B p)) (egressAdds B A p),
        recorded := insertIfAbsent [(0, 1, p)] (1, 0, p),
        inProgress := [] } := by
  rw [allow_init_state]
  have h := @allow_eq 1 0 p
    { sets := [(0, A), (1, B)],
      ingress := foldIns [] (ingressAdds A B p),
      egress := foldIns [] (egressAdds A B p),
      recorded := [(0, 1, p)],
      inProgress := [] } (by simp)
  rw [h]
  rfl

theorem allow_allow_state2 (A B : List Entity) (p : Nat) :
    allow 0 1 p (allow 1 0 p (initState A B)) =
      { sets := [(0, A), (1, B)],
        ingress := foldIns (foldIns [] (ingressAdds B A p)) (ingressAdds A B p),
        egress := foldIns (foldIns [] (egressAdds B A p)) (egressAdds A B p),
        recorded := insertIfAbsent [(1, 0, p)] (0, 1, p),
        inProgress := [] } := by
  rw [allow_init_state2]
  have h := @allow_eq 0 1 p
    { sets := [(0, A), (1, B)],
      ingress := foldIns [] (ingressAdds B A p),
      egress := foldIns [] (egressAdds B A p),
      recorded := [(1, 0, p)],
      inProgress := [] } (by simp)
  rw [h]
  rfl

theorem egress_rule_mem_adds {M N : List Entity} {p : Nat} {s d : Entity}
    (hs : s ∈ M) (hd : d ∈ N) (hw : canEgress s = true) :
    (s.eid, d.eid, p) ∈ egressAdds M N p :=
  mem_egressAdds.mpr ⟨s, hs, hw, d, hd, rfl⟩

theorem ingress_rule_mem_adds {M N : List Entity} {p : Nat} {s d : Entity}
    (hs : s ∈ M) (hd : d ∈ N) (hw : canIngress d = true) :
    (d.eid, s.eid, p) ∈ ingressAdds M N p :=
  mem_ingressAdds.mpr ⟨d, hd, hw, s, hs, rfl⟩

/-- C1: with sets A (id 0) and B (id 1) of writable members, calling
`A.allow(B, p)` and `B.allow(A, p)` — in either order, each call making
the re-entrant symmetric call that the recursion guard cuts off — yields
exactly one egress and one ingress rule per ordered pair of members, with
no duplicate rules in either container.  Termination itself is definitional:
`allow` is a total function (accepted by well-founded recursion on the
currently-processing pair set). -/
theorem c1_mutual_allow_exactly_one_rule_per_pair
    (A B : List Entity) (p : Nat)
    (hA : ∀ e ∈ A, e.kind = PeerKind.writable)
    (hB : ∀ e ∈ B, e.kind = PeerKind.writable)
    (s : Entity) (hs : s ∈ A) (d : Entity) (hd : d ∈ B) :
    ((allow 1 0 p (allow 0 1 p (initState A B))).egress.count (s.eid, d.eid, p) = 1 ∧
     (allow 1 0 p (allow 0 1 p (initState A B))).egress.count (d.eid, s.eid, p) = 1 ∧
     (allow 1 0 p (allow 0 1 p (initState A B))).ingress.count (d.eid, s.eid, p) = 1 ∧
     (allow 1 0 p (allow 0 1 p (initState A B))).ingress.count (s.eid, d.eid, p) = 1 ∧
     (allow 1 0 p (allow 0 1 p (initState A B))).egress.Nodup ∧
     (allow 1 0 p (allow 0 1 p (initState A B))).ingress.Nodup) ∧
    ((allow 0 1 p (allow 1 0 p (initState A B))).egress.count (s.eid, d.eid, p) = 1 ∧
     (allow 0 1 p (allow 1 0 p (initState A B))).egress.count (d.eid, s.eid, p) = 1 ∧
     (allow 0 1 p (allow 1 0 p (initState A B))).ingress.count (d.eid, s.eid, p) = 1 ∧
     (allow 0 1 p (allow 1 0 p (initState A B))).ingress.count (s.eid, d.eid, p) = 1 ∧
     (allow 0 1 p (allow 1 0 p (initState A B))).egress.Nodup ∧
     (allow 0 1 p (allow 1 0 p (initState A B))).ingress.Nodup) := by
  have hsw := canEgress_of_writable (hA s hs)
  have hdw := canEgress_of_writable (hB d hd)
  have hsi := canIngress_of_writable (hA s hs)
  have hdi := canIngress_of_writable (hB d hd)
  rw [allow_allow_state, allow_allow_state2]
  refine ⟨⟨?_, ?_, ?_, ?_, foldIns2_nodup _ _, foldIns2_nodup _ _⟩,
          ⟨?_, ?_, ?_, ?_, foldIns2_nodup _ _, foldIns2_nodup _ _⟩⟩
  · exact foldIns2_count _ _ _ (Or.inl (egress_rule_mem_adds hs hd hsw))
  · exact foldIns2_count _ _ _ (Or.inr (egress_rule_mem_adds hd hs hdw))
  · exact foldIns2_count _ _ _ (Or.inl (ingress_rule_mem_adds hs hd hdi))
  · exact foldIns2_count _ _ _ (Or.inr (ingress_rule_mem_adds hd hs hsi))
  · exact foldIns2_count _ _ _ (Or.inr (egress_rule_mem_adds hs hd hsw))
  · exact foldIns2_count _ _ _ (Or.inl (egress_rule_mem_adds hd hs hdw))
  · exact foldIns2_count _ _ _ (Or.inr (ingress_rule_mem_adds hs hd hdi))
  · exact foldIns2_count _ _ _ (Or.inl (ingress_rule_mem_adds hd hs hsi))

/-- Witness for C1 at concrete singleton sets and port 80. -/
theorem c1_witness :
    (∀ e ∈ [Entity.mk 1 PeerKind.writable], e.kind = PeerKind.writable) ∧
    (∀ e ∈ [Entity.mk 2 PeerKind.writable], e.kind = PeerKind.writable) ∧
    (allow 1 0 80 (allow 0 1 80
        (initState [Entity.mk 1 PeerKind.writable] [Entity.mk 2 PeerKind.writable]))).egress.count
      (1, 2, 80) = 1 :=
  ⟨by decide, by decide,
    (c1_mutual_allow_exactly_one_rule_per_pair
      [Entity.mk 1 PeerKind.writable] [Entity.mk 2 PeerKind.writable] 80
      (by decide) (by decide)
      (Entity.mk 1 PeerKind.writable) (by decide)
      (Entity.mk 2 PeerKind.writable) (by decide)).1.1⟩


theorem addMember_src_state (A B : List Entity) (p : Nat) (x : Entity) :
    addMember 0 x (allow 0 1 p (initState A B)) =
      { sets := [(0, A ++ [x]), (1, B)],
        ingress := foldIns (foldIns [] (ingressAdds A B p)) (ingressAdds [x] B p),
        egress := foldIns (foldIns [] (egressAdds A B p)) (egressAdds [x] B p),
        recorded := [(0, 1, p)],
        inProgress := [] } := by
  rw [allow_init_state]
  rfl

theorem addMember_dst_state (A B : List Entity) (p : Nat) (x : Entity) :
    addMember 1 x (allow 0 1 p (initState A B)) =
      { sets := [(0, A), (1, B ++ [x])],
        ingress := foldIns (foldIns [] (ingressAdds A B p)) (ingressAdds A [x] p),
        egress := foldIns (foldIns [] (egressAdds A B p)) (egressAdds A [x] p),
        recorded := [(0, 1, p)],
        inProgress := [] } := by
  rw [allow_init_state]
  rfl

/-- C3: after `S.allow(D, p)` (S = set 0, D = set 1), adding a new writable
member `x` to either set replays the recorded allow onto `x`: joining the
source set gives `x` the same egress rule against every member of `D` (and
those members the matching ingress rule from `x`); joining the destination
set gives `x` the same ingress rule from every member of `S` (and those
members the matching egress rule to `x`).  Rules of previously covered
members are not re-applied: every rule count stays exactly 1 and the
containers stay duplicate-free. -/
theorem c3_late_member_replay (A B : List Entity) (p : Nat) (x : Entity)
    (hA : ∀ e ∈ A, e.kind = PeerKind.writable)
    (hB : ∀ e ∈ B, e.kind = PeerKind.writable)
    (hx : x.kind = PeerKind.writable) :
    (∀ d ∈ B,
      (addMember 0 x (allow 0 1 p (initState A B))).egress.count (x.eid, d.eid, p) = 1 ∧
      (addMember 0 x (allow 0 1 p (initState A B))).ingress.count (d.eid, x.eid, p) = 1) ∧
    (∀ s ∈ A, ∀ d ∈ B,
      (addMember 0 x (allow 0 1 p (initState A B))).egress.count (s.eid, d.eid, p) = 1 ∧
      (addMember 0 x (allow 0 1 p (initState A B))).ingress.count (d.eid, s.eid, p) = 1) ∧
    (addMember 0 x (allow 0 1 p (initState A B))).egress.Nodup ∧
    (addMember 0 x (allow 0 1 p (initState A B))).ingress.Nodup ∧
    (∀ s ∈ A,
      (addMember 1 x (allow 0 1 p (initState A B))).egress.count (s.eid, x.eid, p) = 1 ∧
      (addMember 1 x (allow 0 1 p (initState A B))).ingress.count (x.eid, s.eid, p) = 1) := by
  rw [addMember_src_state, addMember_dst_state]
  have hxe := canEgress_of_writable hx
  have hxi := canIngress_of_writable hx
  refine ⟨?_, ?_, foldIns2_nodup _ _, foldIns2_nodup _ _, ?_⟩
  · intro d hd
    exact ⟨foldIns2_count _ _ _
        (Or.inr (egress_rule_mem_adds (List.mem_singleton.mpr rfl) hd hxe)),
      foldIns2_count _ _ _
        (Or.inr (ingress_rule_mem_adds (List.mem_singleton.mpr rfl) hd
          (canIngress_of_writable (hB d hd))))⟩
  · intro s hs d hd
    exact ⟨foldIns2_count _ _ _
        (Or.inl (egress_rule_mem_adds hs hd (canEgress_of_writable (hA s hs)))),
      foldIns2_count _ _ _
        (Or.inl (ingress_rule_mem_adds hs hd (canIngress_of_writable (hB d hd))))⟩
  · intro s hs
    exact ⟨foldIns2_count _ _ _
        (Or.inr (egress_rule_mem_adds hs (List.mem_singleton.mpr rfl)
          (canEgress_of_writable (hA s hs)))),
      foldIns2_count _ _ _
        (Or.inr (ingress_rule_mem_adds hs (List.mem_singleton.mpr rfl) hxi))⟩

/-- Witness for C3 at concrete singleton sets, port 88, and a concrete late
member: the new member 3 carries the same rule against member 2 as the
original members. -/
theorem c3_witness :
    (addMember 0 (Entity.mk 3 PeerKind.writable) (allow 0 1 88
        (initState [Entity.mk 1 PeerKind.writable]
          [Entity.mk 2 PeerKind.writable]))).egress.count (3, 2, 88) = 1 ∧
    (addMember 0 (Entity.mk 3 PeerKind.writable) (allow 0 1 88
        (initState [Entity.mk 1 PeerKind.writable]
          [Entity.mk 2 PeerKind.writable]))).ingress.count (2, 3, 88) = 1 :=
  (c3_late_member_replay [Entity.mk 1 PeerKind.writable]
    [Entity.mk 2 PeerKind.writable] 88 (Entity.mk 3 PeerKind.writable)
    (by decide) (by decide) (by decide)).1
    (Entity.mk 2 PeerKind.writable) (by decide)

/-- C6: an allow from a foreign (imported) peer `f` to a locally writable
entity `e` always creates the rule on the writable side (the ingress rule
on `e`), creates the egress rule on the foreign side exactly when the
foreign entity is explicitly known to restrict its outbound traffic, and
creates no rule on the foreign side under the default tri-state values
(unknown or allow-all). -/
theorem c6_foreign_peer_rules (f e : Entity) (p : Nat) (ob : TriState)
    (hf : f.kind = PeerKind.foreign ob) (he : e.kind = PeerKind.writable) :
    ((allow 0 1 p (initState [f] [e])).ingress.count (e.eid, f.eid, p) = 1) ∧
    (((f.eid, e.eid, p) ∈ (allow 0 1 p (initState [f] [e])).egress) ↔
      ob = TriState.restricted) ∧
    (ob ≠ TriState.restricted → (allow 0 1 p (initState [f] [e])).egress = []) := by
  rw [allow_init_state]
  have hci : canIngress e = true := canIngress_of_writable he
  have hing : ingressAdds [f] [e] p = [(e.eid, f.eid, p)] := by
    unfold ingressAdds
    simp [hci]
  refine ⟨?_, ?_, ?_⟩
  · show (foldIns [] (ingressAdds [f] [e] p)).count (e.eid, f.eid, p) = 1
    rw [hing]
    simp [foldIns, insertIfAbsent]
  · show (f.eid, e.eid, p) ∈ foldIns [] (egressAdds [f] [e] p) ↔ ob = TriState.restricted
    cases ob with
    | restricted =>
      have hcf : canEgress f = true := by unfold canEgress; rw [hf]
      have hegr : egressAdds [f] [e] p = [(f.eid, e.eid, p)] := by
        unfold egressAdds; simp [hcf]
      rw [hegr]
      simp [foldIns, insertIfAbsent]
    | allowAll =>
      have hcf : canEgress f = false := by unfold canEgress; rw [hf]
      have hegr : egressAdds [f] [e] p = [] := by
        unfold egressAdds; simp [hcf]
      rw [hegr]
      simp [foldIns]
    | unknown =>
      have hcf : canEgress f = false := by unfold canEgress; rw [hf]
      have hegr : egressAdds [f] [e] p = [] := by
        unfold egressAdds; simp [hcf]
      rw [hegr]
      simp [foldIns]
  · intro hob
    show foldIns [] (egressAdds [f] [e] p) = []
    have hcf : canEgress f = false := by
      unfold canEgress; rw [hf]
      cases ob with
      | restricted => exact absurd rfl hob
      | allowAll => rfl
      | unknown => rfl
    have hegr : egressAdds [f] [e] p = [] := by
      unfold egressAdds; simp [hcf]
    rw [hegr]
    rfl

/-- Witness for C6 at a concrete foreign peer with the default unknown
outbound policy: the writable side gets its ingress rule and the foreign
side gets no egress rule. -/
theorem c6_witness :
    ((allow 0 1 99 (initState [Entity.mk 5 (PeerKind.foreign TriState.unknown)]
        [Entity.mk 6 PeerKind.writable])).ingress.count (6, 5, 99) = 1) ∧
    ((allow 0 1 99 (initState [Entity.mk 5 (PeerKind.foreign TriState.unknown)]
        [Entity.mk 6 PeerKind.writable])).egress = []) :=
  ⟨(c6_foreign_peer_rules (Entity.mk 5 (PeerKind.foreign TriState.unknown))
      (Entity.mk 6 PeerKind.writable) 99 TriState.unknown rfl rfl).1,
    (c6_foreign_peer_rules (Entity.mk 5 (PeerKind.foreign TriState.unknown))
      (Entity.mk 6 PeerKind.writable) 99 TriState.unknown rfl rfl).2.2 (by decide)⟩

end CG


/-! ## RB: placeholder resolver and cross-unit reference bridge
(modelled from the spec) -/

namespace RB

/-- Modelled from the spec: a value tree — scalars, ordered sequences,
string-keyed mappings, embedded placeholders (`ph`), identity-attribute
references to addressable entities (`attr`), and the two literal
reference forms produced by resolution: a locally embedded identity
(`localId`) and a cross-unit import expression (`importExpr`). -/
inductive Tree where
  | str (s : String)
  | num (n : Int)
  | bool (b : Bool)
  | null
  | undef
  | localId (eid : Nat)
  | importExpr (unit : Nat) (name : Nat)
  | ph (id : Nat)
  | attr (eid : Nat)
  | seq (xs : List Tree)
  | map (kvs : List (String × Tree))

/-- Modelled from the spec: a placeholder-registry entry — unique id, a
display hint for diagnostics, and the producer result (a tree which may
itself contain further placeholders; producers are zero-argument, so the
registry stores their result tree). -/
structure PEntry where
  id : Nat
  hint : String
  body : Tree

abbrev Prods := List PEntry

def lookupProd (prods : Prods) (id : Nat) : Option (String × Tree) :=
  (prods.find? (fun e => e.id == id)).map (fun e => (e.hint, e.body))

/-- The number of registered placeholder ids not currently being resolved:
the termination measure of resolution with the currently-resolving set. -/
def countFree (prods : Prods) (r : List Nat) : Nat :=
  ((prods.map (fun e => e.id)).filter (fun i => !r.contains i)).length

theorem length_filter_notContains_cons_le (l : List Nat) (id : Nat) (r : List Nat) :
    (l.filter fun i => !(id :: r).contains i).length ≤ (l.filter fun i => !r.contains i).length := by
  induction l with
  | nil => simp
  | cons a l ih =>
    by_cases ha : a ∈ r
    · have h1 : (!List.contains r a) = false := by simp [List.contains, ha]
      have h2 : (!List.contains (id :: r) a) = false := by
        simp [List.contains, List.mem_cons]
        intro _; exact ha
      simp only [List.filter, h1, h2]
      exact ih
    · by_cases hid : a = id
      · have h1 : (!List.contains (id :: r) a) = false := by
          simp [List.contains, hid]
        simp only [List.filter, h1]
        cases h2 : (!List.contains r a) with
        | true => simp only [List.length_cons]; omega
        | false => exact ih
      · have h1 : (!List.contains r a) = true := by simp [List.contains, ha]
        have h2 : (!List.contains (id :: r) a) = true := by
          simp [List.contains, List.mem_cons]
          exact ⟨hid, ha⟩
        simp only [List.filter, h1, h2, List.length_cons]
        omega

theorem length_filter_notContains_cons_lt (l : List Nat) (id : Nat) (r : List Nat)
    (hl : id ∈ l) (hr : id ∉ r) :
    (l.filter fun i => !(id :: r).contains i).length < (l.filter fun i => !r.contains i).length := by
  induction l with
  | nil => simp at hl
  | cons a l ih =>
    by_cases hid : a = id
    · subst hid
      have h1 : (!List.contains (a :: r) a) = false := by simp [List.contains]
      have h2 : (!List.contains r a) = true := by simp [List.contains, hr]
      simp only [List.filter, h1, h2, List.length_cons]
      have := length_filter_notContains_cons_le l a r
      omega
    · have hl2 : id ∈ l := by
        rcases List.mem_cons.mp hl with h | h
        · exact (hid h.symm).elim
        · exact h
      have harr : List.contains (id :: r) a = List.contains r a := by
        simp [List.contains, List.mem_cons]
        intro h; exact (hid h).elim
      cases h2 : (!List.contains r a) with
      | true =>
        have h1 : (!List.contains (id :: r) a) = true := by rw [harr]; exact h2
        simp only [List.filter, h1, h2, List.length_cons]
        exact Nat.succ_lt_succ (ih hl2)
      | false =>
        have h1 : (!List.contains (id :: r) a) = false := by rw [harr]; exact h2
        simp only [List.filter, h1, h2]
        exact ih hl2

theorem countFree_cons_lt (prods : Prods) (r : List Nat) (id : Nat)
    (hlk : (lookupProd prods id).isSome) (hr : id ∉ r) :
    countFree prods (id :: r) < countFree prods r := by
  have hmem : id ∈ prods.map (fun e => e.id) := by
    unfold lookupProd at hlk
    cases hfind : prods.find? (fun e => e.id == id) with
    | none => rw [hfind] at hlk; simp at hlk
    | some e =>
      have he := List.find?_some hfind
      have hmem2 := List.mem_of_find?_eq_some hfind
      simp at he
      rw [List.mem_map]
      exact ⟨e, hmem2, he⟩
  exact length_filter_notContains_cons_lt _ _ _ hmem hr

/-- Resolution errors: a cycle (carrying the chain of placeholder ids and
the matching chain of display hints) or a reference to an unregistered
placeholder. -/
inductive RErr where
  | cycle (ids : List Nat) (hints : List String)
  | missing (id : Nat)

/-- Modelled from the spec: the session-scoped state of the reference
bridge — the export-record table (one record per (producing unit, value)
pair, mapped to the allocated export name ordinal) and the collected
inter-unit ordering dependency edges (consuming unit, producing unit). -/
structure Session where
  exports : List ((Nat × Nat) × Nat)
  deps : List (Nat × Nat)
  deriving DecidableEq

/-- Association lookup on the export-record table. -/
def alookup {β : Type} (k : Nat × Nat) : List ((Nat × Nat) × β) → Option β
  | [] => none
  | (k2, w) :: es => if k2 = k then some w else alookup k es

theorem alookup_some_mem_keys {β : Type} {l : List ((Nat × Nat) × β)}
    {k : Nat × Nat} {n : β} (h : alookup k l = some n) : k ∈ l.map Prod.fst := by
  induction l with
  | nil => simp [alookup] at h
  | cons a l ih =>
    rw [show alookup k (a :: l) = if a.1 = k then some a.2 else alookup k l from rfl] at h
    by_cases hk : a.1 = k
    · rw [List.map_cons, hk]
      exact List.mem_cons_self _ _
    · rw [if_neg hk] at h
      exact List.mem_cons_of_mem _ (ih h)

theorem alookup_none_not_mem_keys {β : Type} {l : List ((Nat × Nat) × β)}
    {k : Nat × Nat} (h : alookup k l = none) : k ∉ l.map Prod.fst := by
  induction l with
  | nil => simp
  | cons a l ih =>
    rw [show alookup k (a :: l) = if a.1 = k then some a.2 else alookup k l from rfl] at h
    by_cases hk : a.1 = k
    · rw [if_pos hk] at h; simp at h
    · rw [if_neg hk] at h
      rw [List.map_cons]
      intro hmem
      rcases List.mem_cons.mp hmem with hmem | hmem
      · exact hk hmem.symm
      · exact ih h hmem

theorem alookup_append_some {β : Type} {l : List ((Nat × Nat) × β)}
    {k : Nat × Nat} {n : β} (h : alookup k l = some n) (l2 : List ((Nat × Nat) × β)) :
    alookup k (l ++ l2) = some n := by
  induction l with
  | nil => simp [alookup] at h
  | cons a l ih =>
    rw [show alookup k (a :: l) = if a.1 = k then some a.2 else alookup k l from rfl] at h
    rw [List.cons_append,
      show alookup k (a :: (l ++ l2)) = if a.1 = k then some a.2 else alookup k (l ++ l2) from rfl]
    by_cases hk : a.1 = k
    · rw [if_pos hk] at h ⊢; exact h
    · rw [if_neg hk] at h ⊢; exact ih h

theorem alookup_append_self {β : Type} {l : List ((Nat × Nat) × β)}
    {k : Nat × Nat} (h : alookup k l = none) (n : β) :
    alookup k (l ++ [(k, n)]) = some n := by
  induction l with
  | nil => simp [alookup]
  | cons a l ih =>
    rw [show alookup k (a :: l) = if a.1 = k then some a.2 else alookup k l from rfl] at h
    rw [List.cons_append,
      show alookup k (a :: (l ++ [(k, n)])) =
        if a.1 = k then some a.2 else alookup k (l ++ [(k, n)]) from rfl]
    by_cases hk : a.1 = k
    · rw [if_pos hk] at h; simp at h
    · rw [if_neg hk] at h ⊢; exact ih h

/-- Modelled from the spec: export allocation with dedup — an existing
record for the (unit, value) pair is returned as-is; otherwise a fresh
export name ordinal is allocated and the record appended. -/
def requestExport (u v : Nat) (s : Session) : Nat × Session :=
  match alookup (u, v) s.exports with
  | some n => (n, s)
  | none => (s.exports.length,
      { s with exports := s.exports ++ [((u, v), s.exports.length)] })

/-- Record the ordering dependency edge consuming-unit to producing-unit,
deduplicated. -/
def addDep (cu pu : Nat) (s : Session) : Session :=
  { s with deps := insertIfAbsent s.deps (cu, pu) }

/-- The units that `u` depends on, collected from the recorded edges. -/
def getUnitDependencies (u : Nat) (s : Session) : List Nat :=
  s.deps.filterMap fun d => if d.1 = u then some d.2 else none

/-- The display hints of a chain of placeholder ids. -/
def hintsOf (prods : Prods) (ids : List Nat) : List String :=
  ids.map fun i =>
    match lookupProd prods i with
    | some hb => hb.1
    | none => ""

/-- A resolved value counts as empty when it is an empty sequence, an
empty mapping, or the explicit undefined marker. -/
def isEmptyVal : Tree → Bool
  | .seq [] => true
  | .map [] => true
  | .undef => true
  | _ => false

mutual

/-- Modelled from the spec: the resolver.  `prods` is the placeholder
registry, `env` assigns every addressable entity its owning deployable
unit, `cu` is the unit currently being rendered, `om` is the per-call
omission flag for empty mapping entries, `r` is the per-pass
currently-resolving set (the cycle guard — re-entering an id in `r` fails
with a `CycleError` naming the chain of hints), and `s` is the bridge
session.  An `attr` in the current unit resolves to the locally embedded
id; otherwise the bridge allocates-or-reuses an export in the producing
unit, records the dependency edge, and resolution yields the import
expression.  The definition is total (well-founded recursion on the
registered-but-not-yet-resolving count), which is the guarantee that
resolution neither overflows nor loops. -/
def resolveT (prods : Prods) (env : Nat → Nat) (cu : Nat) (om : Bool)
    (r : List Nat) (s : Session) : Tree → Except RErr (Tree × Session)
  | .str v => .ok (.str v, s)
  | .num n => .ok (.num n, s)
  | .bool b => .ok (.bool b, s)
  | .null => .ok (.null, s)
  | .undef => .ok (.undef, s)
  | .localId e => .ok (.localId e, s)
  | .importExpr u n => .ok (.importExpr u n, s)
  | .ph id =>
    if hmem : id ∈ r then .error (.cycle (id :: r) (hintsOf prods (id :: r)))
    else
      match h : lookupProd prods id with
      | none => .error (.missing id)
      | some hb => resolveT prods env cu om (id :: r) s hb.2
  | .attr e =>
    if env e = cu then .ok (.localId e, s)
    else
      .ok (.importExpr (env e) (requestExport (env e) e s).1,
           addDep cu (env e) (requestExport (env e) e s).2)
  | .seq xs =>
    match resolveL prods env cu om r s xs with
    | .error e => .error e
    | .ok (ys, s1) => .ok (.seq ys, s1)
  | .map kvs =>
    match resolveM prods env cu om r s kvs with
    | .error e => .error e
    | .ok (ys, s1) => .ok (.map ys, s1)
termination_by t => (countFree prods r, sizeOf t)
decreasing_by
  all_goals
    first
      | exact Prod.Lex.right _ (by simp <;> omega)
      | exact Prod.Lex.left _ _ (countFree_cons_lt prods r _ (by rw [h]; rfl) hmem)

/-- Depth-first, left-to-right resolution of a sequence, threading the
session. -/
def resolveL (prods : Prods) (env : Nat → Nat) (cu : Nat) (om : Bool)
    (r : List Nat) (s : Session) : List Tree → Except RErr (List Tree × Session)
  | [] => .ok ([], s)
  | x :: xs =>
    match resolveT prods env cu om r s x with
    | .error e => .error e
    | .ok (y, s1) =>
      match resolveL prods env cu om r s1 xs with
      | .error e => .error e
      | .ok (ys, s2) => .ok (y :: ys, s2)
termination_by xs => (countFree prods r, sizeOf xs)

/-- Depth-first, insertion-order resolution of mapping entries, threading
the session; with the omission flag set, entries whose resolved value is
empty are dropped (after being resolved). -/
def resolveM (prods : Prods) (env : Nat → Nat) (cu : Nat) (om : Bool)
    (r : List Nat) (s : Session) :
    List (String × Tree) → Except RErr (List (String × Tree) × Session)
  | [] => .ok ([], s)
  | (k, v) :: kvs =>
    match resolveT prods env cu om r s v with
    | .error e => .error e
    | .ok (y, s1) =>
      match resolveM prods env cu om r s1 kvs with
      | .error e => .error e
      | .ok (ys, s2) =>
        if om && isEmptyVal y then .ok (ys, s2) else .ok ((k, y) :: ys, s2)
termination_by kvs => (countFree prods r, sizeOf kvs)

end

/-- Modelled from the spec: the resolve entry point used when the
per-call omission flag is not supplied — the default keeps empty mapping
entries. -/
def resolveTree (prods : Prods) (env : Nat → Nat) (cu : Nat) (s : Session)
    (t : Tree) : Except RErr (Tree × Session) :=
  resolveT prods env cu false [] s t


theorem resolveT_str {prods env cu om r s v} :
    resolveT prods env cu om r s (.str v) = .ok (.str v, s) := by
  rw [resolveT.eq_def]

theorem resolveT_num {prods env cu om r s n} :
    resolveT prods env cu om r s (.num n) = .ok (.num n, s) := by
  rw [resolveT.eq_def]

theorem resolveT_undef {prods env cu om r s} :
    resolveT prods env cu om r s .undef = .ok (.undef, s) := by
  rw [resolveT.eq_def]

theorem resolveT_localId {prods env cu om r s e} :
    resolveT prods env cu om r s (.localId e) = .ok (.localId e, s) := by
  rw [resolveT.eq_def]

theorem resolveT_importExpr {prods env cu om r s u n} :
    resolveT prods env cu om r s (.importExpr u n) = .ok (.importExpr u n, s) := by
  rw [resolveT.eq_def]

theorem resolveT_ph_cycle {prods env cu om r s id} (h : id ∈ r) :
    resolveT prods env cu om r s (.ph id) =
      .error (.cycle (id :: r) (hintsOf prods (id :: r))) := by
  rw [resolveT.eq_def]
  simp only [dif_pos h]

theorem resolveT_ph_missing {prods env cu om r s id} (h : id ∉ r)
    (hl : lookupProd prods id = none) :
    resolveT prods env cu om r s (.ph id) = .error (.missing id) := by
  rw [resolveT.eq_def]
  simp only [dif_neg h]
  split
  · rfl
  · next hb heq => rw [hl] at heq; cases heq

theorem resolveT_ph_found {prods env cu om r s id hb} (h : id ∉ r)
    (hl : lookupProd prods id = some hb) :
    resolveT prods env cu om r s (.ph id) =
      resolveT prods env cu om (id :: r) s hb.2 := by
  rw [resolveT.eq_def]
  simp only [dif_neg h]
  split
  · next heq => rw [hl] at heq; cases heq
  · next hb2 heq =>
    rw [hl] at heq
    have : hb = hb2 := Option.some_inj.mp heq
    rw [this]

theorem resolveT_attr_local {prods env cu om r s e} (h : env e = cu) :
    resolveT prods env cu om r s (.attr e) = .ok (.localId e, s) := by
  rw [resolveT.eq_def]
  simp only [if_pos h]

theorem resolveT_attr_cross {prods env cu om r s e} (h : ¬ env e = cu) :
    resolveT prods env cu om r s (.attr e) =
      .ok (.importExpr (env e) (requestExport (env e) e s).1,
           addDep cu (env e) (requestExport (env e) e s).2) := by
  rw [resolveT.eq_def]
  simp only [if_neg h]

theorem resolveT_seq {prods env cu om r s xs} :
    resolveT prods env cu om r s (.seq xs) =
      match resolveL prods env cu om r s xs with
      | .error e => .error e
      | .ok (ys, s1) => .ok (.seq ys, s1) := by
  rw [resolveT.eq_def]

theorem resolveT_map {prods env cu om r s kvs} :
    resolveT prods env cu om r s (.map kvs) =
      match resolveM prods env cu om r s kvs with
      | .error e => .error e
      | .ok (ys, s1) => .ok (.map ys, s1) := by
  rw [resolveT.eq_def]

theorem resolveL_nil {prods env cu om r s} :
    resolveL prods env cu om r s [] = .ok ([], s) := by
  rw [resolveL.eq_def]

theorem resolveL_cons {prods env cu om r s x xs} :
    resolveL prods env cu om r s (x :: xs) =
      match resolveT prods env cu om r s x with
      | .error e => .error e
      | .ok (y, s1) =>
        match resolveL prods env cu om r s1 xs with
        | .error e => .error e
        | .ok (ys, s2) => .ok (y :: ys, s2) := by
  rw [resolveL.eq_def]

theorem resolveM_nil {prods env cu om r s} :
    resolveM prods env cu om r s [] = .ok ([], s) := by
  rw [resolveM.eq_def]

theorem resolveM_cons {prods env cu om r s k v kvs} :
    resolveM prods env cu om r s ((k, v) :: kvs) =
      match resolveT prods env cu om r s v with
      | .error e => .error e
      | .ok (y, s1) =>
        match resolveM prods env cu om r s1 kvs with
        | .error e => .error e
        | .ok (ys, s2) =>
          if om && isEmptyVal y then .ok (ys, s2) else .ok ((k, y) :: ys, s2) := by
  rw [resolveM.eq_def]

/-- C4: requesting an export for the identical (unit, value) pair twice
returns the same export name both times and creates no second export
record; a pair not yet recorded gets exactly one record, and the
one-record-per-pair key invariant is preserved. -/
theorem c4_export_dedup (u v : Nat) (s : Session) :
    (requestExport u v (requestExport u v s).2).1 = (requestExport u v s).1 ∧
    (requestExport u v (requestExport u v s).2).2 = (requestExport u v s).2 ∧
    (s.exports.countP (fun rec => rec.1 == (u, v)) = 0 →
      (requestExport u v s).2.exports.countP (fun rec => rec.1 == (u, v)) = 1) ∧
    ((s.exports.map Prod.fst).Nodup →
      ((requestExport u v s).2.exports.map Prod.fst).Nodup) := by
  cases hl : alookup (u, v) s.exports with
  | some n =>
    have he : requestExport u v s = (n, s) := by
      unfold requestExport; rw [hl]
    rw [he]
    refine ⟨by rw [he], by rw [he], ?_, fun h => h⟩
    intro hc
    exfalso
    have hmem := alookup_some_mem_keys hl
    simp only [List.countP_eq_zero] at hc
    rcases List.mem_map.mp hmem with ⟨rec, hrec, hfst⟩
    have hcr := hc rec hrec
    rw [hfst] at hcr
    exact hcr (beq_self_eq_true _)
  | none =>
    have he : requestExport u v s =
        (s.exports.length,
         { s with exports := s.exports ++ [((u, v), s.exports.length)] }) := by
      unfold requestExport; rw [hl]
    have hl2 : alookup (u, v) (s.exports ++ [((u, v), s.exports.length)]) =
        some s.exports.length := alookup_append_self hl _
    have he2 : requestExport u v
        ({ s with exports := s.exports ++ [((u, v), s.exports.length)] } : Session) =
        (s.exports.length,
         { s with exports := s.exports ++ [((u, v), s.exports.length)] }) := by
      unfold requestExport
      simp only [hl2]
    rw [he]
    refine ⟨by rw [he2], by rw [he2], ?_, ?_⟩
    · intro hc
      simp only [List.countP_append, hc]
      simp
    · intro hnd
      simp only [List.map_append, List.map_cons, List.map_nil]
      rw [List.nodup_append]
      refine ⟨hnd, List.nodup_singleton _, ?_⟩
      intro a ha hb
      simp only [List.mem_singleton] at hb
      rw [hb] at ha
      exact alookup_none_not_mem_keys hl ha

/-- Witness for C4 at a concrete pair and the empty session. -/
theorem c4_witness :
    (requestExport 1 2 (requestExport 1 2 ⟨[], []⟩).2).1 = (requestExport 1 2 ⟨[], []⟩).1 ∧
    ((⟨[], []⟩ : Session).exports.countP (fun rec => rec.1 == (1, 2)) = 0 ∧
      (requestExport 1 2 ⟨[], []⟩).2.exports.countP (fun rec => rec.1 == (1, 2)) = 1) :=
  ⟨(c4_export_dedup 1 2 ⟨[], []⟩).1,
    by decide, (c4_export_dedup 1 2 ⟨[], []⟩).2.2.1 (by decide)⟩


/-- The property tree of an ingress rule emitted by the connection graph:
owner group, peer (source) reference, and port, each identity carried as a
deferred attribute reference. -/
def ingressRuleTree (owner peer : Nat) (p : Int) : Tree :=
  .map [("GroupId", .attr owner), ("SourceSecurityGroupId", .attr peer),
        ("FromPort", .num p)]

/-- The property tree of an egress rule emitted by the connection graph:
owner group, peer (destination) reference, and port. -/
def egressRuleTree (owner peer : Nat) (p : Int) : Tree :=
  .map [("GroupId", .attr owner), ("DestinationSecurityGroupId", .attr peer),
        ("FromPort", .num p)]

/-- Modelled from the spec (cross-unit allow) and the cross-stack
connection tests: an allow between entities of different units emits both
rules — the ingress rule owned by the destination with the source as peer,
and the egress rule owned by the source with the destination as peer — in
the consuming unit where the allow was invoked, to be rendered there. -/
def crossAllowEmit (src dst : Nat) (p : Int) : List Tree :=
  [ingressRuleTree dst src p, egressRuleTree src dst p]

theorem crossAllow_render (e1 e2 : Nat) (p : Int) (env : Nat → Nat)
    (h1 : env e1 = 1) (h2 : env e2 = 2) :
    resolveL [] env 2 false [] ⟨[], []⟩ (crossAllowEmit e1 e2 p) =
      .ok ([.map [("GroupId", .localId e2), ("SourceSecurityGroupId", .importExpr 1 0),
                  ("FromPort", .num p)],
            .map [("GroupId", .importExpr 1 0),
                  ("DestinationSecurityGroupId", .localId e2),
                  ("FromPort", .num p)]],
           ⟨[((1, e1), 0)], [(2, 1)]⟩) := by
  have hne1 : ¬ env e1 = 2 := by rw [h1]; decide
  simp only [crossAllowEmit, ingressRuleTree, egressRuleTree, resolveL_cons, resolveL_nil,
    resolveT_map, resolveM_cons, resolveM_nil, resolveT_num,
    resolveT_attr_local h2, resolveT_attr_cross hne1,
    requestExport, addDep, alookup, insertIfAbsent, h1]
  simp [alookup]

/-- C2 as stated is false on the rendered output: the egress rule's peer
field (`DestinationSecurityGroupId`) directly embeds E2's id, not E1's; E1
appears in the egress rule only through the import reference in its owner
field.  Concrete instance: E1 = entity 10 in unit 1, E2 = entity 20 in
unit 2, port 100. -/
theorem c2_counterexample :
    resolveL [] (fun e => if e = 10 then 1 else 2) 2 false [] ⟨[], []⟩
        (crossAllowEmit 10 20 100) =
      .ok ([.map [("GroupId", .localId 20), ("SourceSecurityGroupId", .importExpr 1 0),
                  ("FromPort", .num 100)],
            .map [("GroupId", .importExpr 1 0),
                  ("DestinationSecurityGroupId", .localId 20),
                  ("FromPort", .num 100)]],
           ⟨[((1, 10), 0)], [(2, 1)]⟩) ∧
    Tree.localId 20 ≠ Tree.localId 10 := by
  refine ⟨crossAllow_render 10 20 100 _ (by decide) (by decide), ?_⟩
  intro h
  cases h

/-- C2 (amended): for E1 in unit 1 and E2 in unit 2, rendering the rules
of `E2.allow(E1, p)` in the consuming unit (unit 2) produces an ingress
rule whose peer field is an import reference to the export of E1's id, and
an egress rule whose owner field is that same import reference and whose
peer field directly embeds E2's id; unit 1 gains exactly one export record
for E1's id; both rules are emitted in unit 2; and the unit dependencies
of unit 2 include unit 1. -/
theorem c2_cross_stack_rules (e1 e2 : Nat) (p : Int) (env : Nat → Nat)
    (h1 : env e1 = 1) (h2 : env e2 = 2) :
    resolveL [] env 2 false [] ⟨[], []⟩ (crossAllowEmit e1 e2 p) =
      .ok ([.map [("GroupId", .localId e2), ("SourceSecurityGroupId", .importExpr 1 0),
                  ("FromPort", .num p)],
            .map [("GroupId", .importExpr 1 0),
                  ("DestinationSecurityGroupId", .localId e2),
                  ("FromPort", .num p)]],
           ⟨[((1, e1), 0)], [(2, 1)]⟩) ∧
    (([((1, e1), 0)] : List ((Nat × Nat) × Nat)).countP
        (fun rec => rec.1 == (1, e1)) = 1) ∧
    1 ∈ getUnitDependencies 2 ⟨[((1, e1), 0)], [(2, 1)]⟩ := by
  refine ⟨crossAllow_render e1 e2 p env h1 h2, ?_, ?_⟩
  · simp
  · simp [getUnitDependencies]

/-- Witness for the amended C2 at concrete entities 11 (unit 1) and
22 (unit 2), port 100. -/
theorem c2_witness :
    resolveL [] (fun e => if e = 11 then 1 else 2) 2 false [] ⟨[], []⟩
        (crossAllowEmit 11 22 100) =
      .ok ([.map [("GroupId", .localId 22), ("SourceSecurityGroupId", .importExpr 1 0),
                  ("FromPort", .num 100)],
            .map [("GroupId", .importExpr 1 0),
                  ("DestinationSecurityGroupId", .localId 22),
                  ("FromPort", .num 100)]],
           ⟨[((1, 11), 0)], [(2, 1)]⟩) ∧
    1 ∈ getUnitDependencies 2 ⟨[((1, 11), 0)], [(2, 1)]⟩ :=
  ⟨(c2_cross_stack_rules 11 22 100 _ (by decide) (by decide)).1,
    (c2_cross_stack_rules 11 22 100 (fun e => if e = 11 then 1 else 2)
      (by decide) (by decide)).2.2⟩


/-- A resolved tree with no empty-valued mapping entries anywhere. -/
inductive EmptyFree : Tree → Prop where
  | str (v) : EmptyFree (.str v)
  | num (n) : EmptyFree (.num n)
  | bool (b) : EmptyFree (.bool b)
  | null : EmptyFree .null
  | undef : EmptyFree .undef
  | localId (e) : EmptyFree (.localId e)
  | importExpr (u n) : EmptyFree (.importExpr u n)
  | ph (id) : EmptyFree (.ph id)
  | attr (e) : EmptyFree (.attr e)
  | seq {xs} : (∀ x ∈ xs, EmptyFree x) → EmptyFree (.seq xs)
  | map {kvs} : (∀ kv ∈ kvs, isEmptyVal kv.2 = false) →
      (∀ kv ∈ kvs, EmptyFree kv.2) → EmptyFree (.map kvs)

theorem resolveT_bool {prods env cu om r s b} :
    resolveT prods env cu om r s (.bool b) = .ok (.bool b, s) := by
  rw [resolveT.eq_def]

theorem resolveT_null {prods env cu om r s} :
    resolveT prods env cu om r s .null = .ok (.null, s) := by
  rw [resolveT.eq_def]

theorem resolveT_omit_emptyFree (prods : Prods) (env : Nat → Nat) (cu : Nat)
    (r : List Nat) (s : Session) (t : Tree) :
    ∀ v s1, resolveT prods env cu true r s t = .ok (v, s1) → EmptyFree v := by
  refine resolveT.induct prods env cu true
    (fun r s t => ∀ v s1, resolveT prods env cu true r s t = .ok (v, s1) → EmptyFree v)
    (fun r s kvs => ∀ ys s1, resolveM prods env cu true r s kvs = .ok (ys, s1) →
      ∀ kv ∈ ys, isEmptyVal kv.2 = false ∧ EmptyFree kv.2)
    (fun r s xs => ∀ ys s1, resolveL prods env cu true r s xs = .ok (ys, s1) →
      ∀ y ∈ ys, EmptyFree y)
    ?_ ?_ ?_ ?_ ?_ ?_ ?_ ?_ ?_ ?_ ?_ ?_ ?_ ?_ ?_ ?_ ?_ ?_ ?_ ?_ ?_ ?_ ?_ ?_ ?_ r s t
  · intro r s v0 v s1 h
    simp only [resolveT_str, Except.ok.injEq, Prod.mk.injEq] at h
    rw [← h.1]; exact EmptyFree.str _
  · intro r s n v s1 h
    simp only [resolveT_num, Except.ok.injEq, Prod.mk.injEq] at h
    rw [← h.1]; exact EmptyFree.num _
  · intro r s b v s1 h
    simp only [resolveT_bool, Except.ok.injEq, Prod.mk.injEq] at h
    rw [← h.1]; exact EmptyFree.bool _
  · intro r s v s1 h
    simp only [resolveT_null, Except.ok.injEq, Prod.mk.injEq] at h
    rw [← h.1]; exact EmptyFree.null
  · intro r s v s1 h
    simp only [resolveT_undef, Except.ok.injEq, Prod.mk.injEq] at h
    rw [← h.1]; exact EmptyFree.undef
  · intro r s e v s1 h
    simp only [resolveT_localId, Except.ok.injEq, Prod.mk.injEq] at h
    rw [← h.1]; exact EmptyFree.localId _
  · intro r s u n v s1 h
    simp only [resolveT_importExpr, Except.ok.injEq, Prod.mk.injEq] at h
    rw [← h.1]; exact EmptyFree.importExpr _ _
  · intro r s id hid v s1 h
    rw [resolveT_ph_cycle hid] at h
    simp at h
  · intro r s id hid hl v s1 h
    rw [resolveT_ph_missing hid hl] at h
    simp at h
  · intro r s id hid hb hl ih v s1 h
    rw [resolveT_ph_found hid hl] at h
    exact ih v s1 h
  · intro r s e he v s1 h
    rw [resolveT_attr_local he] at h
    simp only [Except.ok.injEq, Prod.mk.injEq] at h
    rw [← h.1]; exact EmptyFree.localId _
  · intro r s e he v s1 h
    rw [resolveT_attr_cross he] at h
    simp only [Except.ok.injEq, Prod.mk.injEq] at h
    rw [← h.1]; exact EmptyFree.importExpr _ _
  · intro r s xs e hL _ v s1 h
    simp only [resolveT_seq, hL] at h
    simp at h
  · intro r s xs ys s1 hL ih v s1b h
    simp only [resolveT_seq, hL, Except.ok.injEq, Prod.mk.injEq] at h
    rw [← h.1]
    exact EmptyFree.seq (ih ys s1 hL)
  · intro r s kvs e hM _ v s1 h
    simp only [resolveT_map, hM] at h
    simp at h
  · intro r s kvs ys s1 hM ih v s1b h
    simp only [resolveT_map, hM, Except.ok.injEq, Prod.mk.injEq] at h
    rw [← h.1]
    exact EmptyFree.map (fun kv hkv => (ih ys s1 hM kv hkv).1)
      (fun kv hkv => (ih ys s1 hM kv hkv).2)
  · intro r s ys s1 h
    simp only [resolveM_nil, Except.ok.injEq, Prod.mk.injEq] at h
    rw [← h.1]
    intro kv hkv
    simp at hkv
  · intro r s k v kvs e hT _ ys s1 h
    simp only [resolveM_cons, hT] at h
    simp at h
  · intro r s k v kvs y s1 hT e hM _ _ ys s1b h
    simp only [resolveM_cons, hT, hM] at h
    simp at h
  · intro r s k v kvs y s1 hT ys2 s2 hM hcond _ ih ys s1b h
    simp only [resolveM_cons, hT, hM, if_pos hcond] at h
    simp only [Except.ok.injEq, Prod.mk.injEq] at h
    rw [← h.1]
    exact ih ys2 s2 hM
  · intro r s k v kvs y s1 hT ys2 s2 hM hcond ih1 ih2 ys s1b h
    simp only [resolveM_cons, hT, hM, if_neg hcond] at h
    simp only [Except.ok.injEq, Prod.mk.injEq] at h
    rw [← h.1]
    intro kv hkv
    rcases List.mem_cons.mp hkv with hkv | hkv
    · rw [hkv]
      refine ⟨?_, ih1 y s1 hT⟩
      simp only [Bool.true_and] at hcond
      cases hemp : isEmptyVal y with
      | true => exact absurd (by rw [hemp]) hcond
      | false => rfl
    · exact ih2 ys2 s2 hM kv hkv
  · intro r s ys s1 h
    simp only [resolveL_nil, Except.ok.injEq, Prod.mk.injEq] at h
    rw [← h.1]
    intro y hy
    simp at hy
  · intro r s x xs e hT _ ys s1 h
    simp only [resolveL_cons, hT] at h
    simp at h
  · intro r s x xs y s1 hT e hL _ _ ys s1b h
    simp only [resolveL_cons, hT, hL] at h
    simp at h
  · intro r s x xs y s1 hT ys2 s2 hL ih1 ih3 ys s1b h
    simp only [resolveL_cons, hT, hL, Except.ok.injEq, Prod.mk.injEq] at h
    rw [← h.1]
    intro y2 hy2
    rcases List.mem_cons.mp hy2 with hy2 | hy2
    · rw [hy2]; exact ih1 y s1 hT
    · exact ih3 ys2 s2 hL y2 hy2

theorem resolveM_false_keys (prods : Prods) (env : Nat → Nat) (cu : Nat)
    (r : List Nat) :
    ∀ (kvs : List (String × Tree)) (s : Session) (ys : List (String × Tree))
      (s1 : Session),
      resolveM prods env cu false r s kvs = .ok (ys, s1) →
      ys.map Prod.fst = kvs.map Prod.fst := by
  intro kvs
  induction kvs with
  | nil =>
    intro s ys s1 h
    simp only [resolveM_nil, Except.ok.injEq, Prod.mk.injEq] at h
    rw [← h.1]
  | cons kv kvs ih =>
    obtain ⟨k, v⟩ := kv
    intro s ys s1 h
    cases hT : resolveT prods env cu false r s v with
    | error e =>
      simp only [resolveM_cons, hT] at h
      simp at h
    | ok pa =>
      obtain ⟨y, sa⟩ := pa
      cases hM : resolveM prods env cu false r sa kvs with
      | error e =>
        simp only [resolveM_cons, hT, hM] at h
        simp at h
      | ok pb =>
        obtain ⟨ys2, s2⟩ := pb
        simp only [resolveM_cons, hT, hM, Bool.false_and, Bool.false_eq_true,
          if_false, Except.ok.injEq, Prod.mk.injEq] at h
        rw [← h.1, List.map_cons, List.map_cons, ih sa ys2 s2 hM]

/-- C8: the per-call omission flag controls dropping of empty-valued
mapping entries.  With the flag set, every successful resolution result is
free of empty-valued mapping entries (entries whose resolved value is an
empty sequence, empty mapping, or the undefined marker are dropped); with
the flag not supplied (the `resolveTree` entry point, defaulting to keep),
a resolved mapping keeps exactly the keys of the input mapping in order. -/
theorem c8_omission_flag :
    (∀ (prods : Prods) (env : Nat → Nat) (cu : Nat) (s : Session)
       (kvs ys : List (String × Tree)) (s1 : Session),
        resolveTree prods env cu s (.map kvs) = .ok (.map ys, s1) →
        ys.map Prod.fst = kvs.map Prod.fst) ∧
    (∀ (prods : Prods) (env : Nat → Nat) (cu : Nat) (r : List Nat) (s : Session)
       (t v : Tree) (s1 : Session),
        resolveT prods env cu true r s t = .ok (v, s1) → EmptyFree v) := by
  constructor
  · intro prods env cu s kvs ys s1 h
    unfold resolveTree at h
    cases hM : resolveM prods env cu false [] s kvs with
    | error e =>
      simp only [resolveT_map, hM] at h
      simp at h
    | ok pa =>
      obtain ⟨ys2, s2⟩ := pa
      simp only [resolveT_map, hM, Except.ok.injEq, Prod.mk.injEq] at h
      have hys : ys2 = ys := by
        have h1 := h.1
        injection h1
      rw [← hys]
      exact resolveM_false_keys prods env cu [] kvs s ys2 s2 hM
  · intro prods env cu r s t v s1 h
    exact resolveT_omit_emptyFree prods env cu r s t v s1 h

/-- Witness for C8: with the default flag a mapping with an empty-valued
entry keeps its key; with the flag set the entry is dropped and the result
is empty-free. -/
theorem c8_witness :
    (resolveTree [] (fun _ => 0) 0 ⟨[], []⟩ (.map [("a", .undef)]) =
        .ok (.map [("a", .undef)], ⟨[], []⟩) ∧
     ([("a", Tree.undef)].map Prod.fst = [("a", Tree.undef)].map Prod.fst)) ∧
    (resolveT [] (fun _ => 0) 0 true [] ⟨[], []⟩ (.map [("a", .undef)]) =
        .ok (.map [], ⟨[], []⟩) ∧
     EmptyFree (.map [])) := by
  have h1 : resolveTree [] (fun _ => 0) 0 ⟨[], []⟩ (.map [("a", .undef)]) =
      .ok (.map [("a", .undef)], ⟨[], []⟩) := by
    unfold resolveTree
    simp only [resolveT_map, resolveM_cons, resolveT_undef, resolveM_nil]
    simp
  have h2 : resolveT [] (fun _ => 0) 0 true [] ⟨[], []⟩ (.map [("a", .undef)]) =
      .ok (.map [], ⟨[], []⟩) := by
    simp only [resolveT_map, resolveM_cons, resolveT_undef, resolveM_nil]
    simp [isEmptyVal]
  refine ⟨⟨h1, c8_omission_flag.1 [] (fun _ => 0) 0 ⟨[], []⟩ _ _ _ h1⟩,
    ⟨h2, c8_omission_flag.2 [] (fun _ => 0) 0 [] ⟨[], []⟩ _ _ _ h2⟩⟩


/-- Session extension: every export-record lookup and every dependency
edge of the first session is preserved in the second. -/
def SessionExtends (a b : Session) : Prop :=
  (∀ (k : Nat × Nat) (n : Nat), alookup k a.exports = some n → alookup k b.exports = some n) ∧
  (∀ d ∈ a.deps, d ∈ b.deps)

theorem sessionExtends_refl (s : Session) : SessionExtends s s :=
  ⟨fun _ _ h => h, fun _ h => h⟩

theorem sessionExtends_trans {a b c : Session}
    (h1 : SessionExtends a b) (h2 : SessionExtends b c) : SessionExtends a c :=
  ⟨fun k n h => h2.1 k n (h1.1 k n h), fun d h => h2.2 d (h1.2 d h)⟩

theorem requestExport_extends (u v : Nat) (s : Session) :
    SessionExtends s (requestExport u v s).2 := by
  unfold requestExport
  cases hl : alookup (u, v) s.exports with
  | some n => exact sessionExtends_refl s
  | none => exact ⟨fun k m h => alookup_append_some h _, fun d h => h⟩

theorem requestExport_lookup_after (u v : Nat) (s : Session) :
    alookup (u, v) (requestExport u v s).2.exports = some (requestExport u v s).1 := by
  unfold requestExport
  cases hl : alookup (u, v) s.exports with
  | some n => exact hl
  | none => exact alookup_append_self hl _

theorem requestExport_of_lookup {u v : Nat} {s : Session} {n : Nat}
    (h : alookup (u, v) s.exports = some n) : requestExport u v s = (n, s) := by
  unfold requestExport; rw [h]

theorem addDep_extends (cu pu : Nat) (s : Session) :
    SessionExtends s (addDep cu pu s) :=
  ⟨fun _ _ h => h, fun d hd => (mem_insertIfAbsent _ _ _).mpr (Or.inr hd)⟩

theorem addDep_mem (cu pu : Nat) (s : Session) :
    (cu, pu) ∈ (addDep cu pu s).deps :=
  self_mem_insertIfAbsent _ _

theorem addDep_of_mem {cu pu : Nat} {s : Session} (h : (cu, pu) ∈ s.deps) :
    addDep cu pu s = s := by
  unfold addDep
  rw [insertIfAbsent_of_mem h]

theorem addDep_exports (cu pu : Nat) (s : Session) :
    (addDep cu pu s).exports = s.exports := rfl

theorem resolveT_rerun (prods : Prods) (env : Nat → Nat) (cu : Nat) (om : Bool)
    (r : List Nat) (s : Session) (t : Tree) :
    ∀ v s1, resolveT prods env cu om r s t = .ok (v, s1) →
      SessionExtends s s1 ∧
      ∀ s2, SessionExtends s1 s2 → resolveT prods env cu om r s2 t = .ok (v, s2) := by
  refine resolveT.induct prods env cu om
    (fun r s t => ∀ v s1, resolveT prods env cu om r s t = .ok (v, s1) →
      SessionExtends s s1 ∧
      ∀ s2, SessionExtends s1 s2 → resolveT prods env cu om r s2 t = .ok (v, s2))
    (fun r s kvs => ∀ ys s1, resolveM prods env cu om r s kvs = .ok (ys, s1) →
      SessionExtends s s1 ∧
      ∀ s2, SessionExtends s1 s2 → resolveM prods env cu om r s2 kvs = .ok (ys, s2))
    (fun r s xs => ∀ ys s1, resolveL prods env cu om r s xs = .ok (ys, s1) →
      SessionExtends s s1 ∧
      ∀ s2, SessionExtends s1 s2 → resolveL prods env cu om r s2 xs = .ok (ys, s2))
    ?_ ?_ ?_ ?_ ?_ ?_ ?_ ?_ ?_ ?_ ?_ ?_ ?_ ?_ ?_ ?_ ?_ ?_ ?_ ?_ ?_ ?_ ?_ ?_ ?_ r s t
  · intro r s v0 v s1 h
    simp only [resolveT_str, Except.ok.injEq, Prod.mk.injEq] at h
    obtain ⟨hv, hs⟩ := h
    subst hv; subst hs
    exact ⟨sessionExtends_refl s, fun s2 _ => by rw [resolveT_str]⟩
  · intro r s n v s1 h
    simp only [resolveT_num, Except.ok.injEq, Prod.mk.injEq] at h
    obtain ⟨hv, hs⟩ := h
    subst hv; subst hs
    exact ⟨sessionExtends_refl s, fun s2 _ => by rw [resolveT_num]⟩
  · intro r s b v s1 h
    simp only [resolveT_bool, Except.ok.injEq, Prod.mk.injEq] at h
    obtain ⟨hv, hs⟩ := h
    subst hv; subst hs
    exact ⟨sessionExtends_refl s, fun s2 _ => by rw [resolveT_bool]⟩
  · intro r s v s1 h
    simp only [resolveT_null, Except.ok.injEq, Prod.mk.injEq] at h
    obtain ⟨hv, hs⟩ := h
    subst hv; subst hs
    exact ⟨sessionExtends_refl s, fun s2 _ => by rw [resolveT_null]⟩
  · intro r s v s1 h
    simp only [resolveT_undef, Except.ok.injEq, Prod.mk.injEq] at h
    obtain ⟨hv, hs⟩ := h
    subst hv; subst hs
    exact ⟨sessionExtends_refl s, fun s2 _ => by rw [resolveT_undef]⟩
  · intro r s e v s1 h
    simp only [resolveT_localId, Except.ok.injEq, Prod.mk.injEq] at h
    obtain ⟨hv, hs⟩ := h
    subst hv; subst hs
    exact ⟨sessionExtends_refl s, fun s2 _ => by rw [resolveT_localId]⟩
  · intro r s u n v s1 h
    simp only [resolveT_importExpr, Except.ok.injEq, Prod.mk.injEq] at h
    obtain ⟨hv, hs⟩ := h
    subst hv; subst hs
    exact ⟨sessionExtends_refl s, fun s2 _ => by rw [resolveT_importExpr]⟩
  · intro r s id hid v s1 h
    rw [resolveT_ph_cycle hid] at h
    simp at h
  · intro r s id hid hl v s1 h
    rw [resolveT_ph_missing hid hl] at h
    simp at h
  · intro r s id hid hb hl ih v s1 h
    rw [resolveT_ph_found hid hl] at h
    obtain ⟨hext, hrr⟩ := ih v s1 h
    refine ⟨hext, fun s2 h2 => ?_⟩
    rw [resolveT_ph_found hid hl]
    exact hrr s2 h2
  · intro r s e he v s1 h
    rw [resolveT_attr_local he] at h
    simp only [Except.ok.injEq, Prod.mk.injEq] at h
    obtain ⟨hv, hs⟩ := h
    subst hv; subst hs
    exact ⟨sessionExtends_refl s, fun s2 _ => by rw [resolveT_attr_local he]⟩
  · intro r s e he v s1 h
    rw [resolveT_attr_cross he] at h
    simp only [Except.ok.injEq, Prod.mk.injEq] at h
    obtain ⟨hv, hs⟩ := h
    constructor
    · rw [← hs]
      exact sessionExtends_trans (requestExport_extends (env e) e s)
        (addDep_extends cu (env e) _)
    · intro s2 h2
      have hl1 : alookup (env e, e) s1.exports = some (requestExport (env e) e s).1 := by
        rw [← hs, addDep_exports]
        exact requestExport_lookup_after (env e) e s
      have hl2 : alookup (env e, e) s2.exports = some (requestExport (env e) e s).1 :=
        h2.1 _ _ hl1
      have hre2 : requestExport (env e) e s2 = ((requestExport (env e) e s).1, s2) :=
        requestExport_of_lookup hl2
      have hdm1 : (cu, env e) ∈ s1.deps := by
        rw [← hs]
        exact addDep_mem cu (env e) _
      have hdm2 : (cu, env e) ∈ s2.deps := h2.2 _ hdm1
      rw [resolveT_attr_cross he, hre2]
      simp only [addDep_of_mem hdm2]
      rw [← hv]
  · intro r s xs e hL _ v s1 h
    simp only [resolveT_seq, hL] at h
    simp at h
  · intro r s xs ys s1 hL ih v s1b h
    simp only [resolveT_seq, hL, Except.ok.injEq, Prod.mk.injEq] at h
    obtain ⟨hv, hs⟩ := h
    subst hs
    obtain ⟨hext, hrr⟩ := ih ys s1 hL
    refine ⟨hext, fun s2 h2 => ?_⟩
    simp only [resolveT_seq, hrr s2 h2]
    rw [← hv]
  · intro r s kvs e hM _ v s1 h
    simp only [resolveT_map, hM] at h
    simp at h
  · intro r s kvs ys s1 hM ih v s1b h
    simp only [resolveT_map, hM, Except.ok.injEq, Prod.mk.injEq] at h
    obtain ⟨hv, hs⟩ := h
    subst hs
    obtain ⟨hext, hrr⟩ := ih ys s1 hM
    refine ⟨hext, fun s2 h2 => ?_⟩
    simp only [resolveT_map, hrr s2 h2]
    rw [← hv]
  · intro r s ys s1 h
    simp only [resolveM_nil, Except.ok.injEq, Prod.mk.injEq] at h
    obtain ⟨hy, hs⟩ := h
    subst hy; subst hs
    exact ⟨sessionExtends_refl s, fun s2 _ => by rw [resolveM_nil]⟩
  · intro r s k v kvs e hT _ ys s1 h
    simp only [resolveM_cons, hT] at h
    simp at h
  · intro r s k v kvs y s1 hT e hM _ _ ys s1b h
    simp only [resolveM_cons, hT, hM] at h
    simp at h
  · intro r s k v kvs y s1 hT ys2 s2 hM hcond ih1 ih2 ys s1b h
    simp only [resolveM_cons, hT, hM, if_pos hcond, Except.ok.injEq, Prod.mk.injEq] at h
    obtain ⟨hy, hs⟩ := h
    subst hs
    obtain ⟨hext1, hrr1⟩ := ih1 y s1 hT
    obtain ⟨hext2, hrr2⟩ := ih2 ys2 s2 hM
    refine ⟨sessionExtends_trans hext1 hext2, fun s3 h3 => ?_⟩
    have hT2 := hrr1 s3 (sessionExtends_trans hext2 h3)
    have hM2 := hrr2 s3 h3
    simp only [resolveM_cons, hT2, hM2, if_pos hcond]
    rw [← hy]
  · intro r s k v kvs y s1 hT ys2 s2 hM hcond ih1 ih2 ys s1b h
    simp only [resolveM_cons, hT, hM, if_neg hcond, Except.ok.injEq, Prod.mk.injEq] at h
    obtain ⟨hy, hs⟩ := h
    subst hs
    obtain ⟨hext1, hrr1⟩ := ih1 y s1 hT
    obtain ⟨hext2, hrr2⟩ := ih2 ys2 s2 hM
    refine ⟨sessionExtends_trans hext1 hext2, fun s3 h3 => ?_⟩
    have hT2 := hrr1 s3 (sessionExtends_trans hext2 h3)
    have hM2 := hrr2 s3 h3
    simp only [resolveM_cons, hT2, hM2, if_neg hcond]
    rw [← hy]
  · intro r s ys s1 h
    simp only [resolveL_nil, Except.ok.injEq, Prod.mk.injEq] at h
    obtain ⟨hy, hs⟩ := h
    subst hy; subst hs
    exact ⟨sessionExtends_refl s, fun s2 _ => by rw [resolveL_nil]⟩
  · intro r s x xs e hT _ ys s1 h
    simp only [resolveL_cons, hT] at h
    simp at h
  · intro r s x xs y s1 hT e hL _ _ ys s1b h
    simp only [resolveL_cons, hT, hL] at h
    simp at h
  · intro r s x xs y s1 hT ys2 s2 hL ih1 ih3 ys s1b h
    simp only [resolveL_cons, hT, hL, Except.ok.injEq, Prod.mk.injEq] at h
    obtain ⟨hy, hs⟩ := h
    subst hs
    obtain ⟨hext1, hrr1⟩ := ih1 y s1 hT
    obtain ⟨hext3, hrr3⟩ := ih3 ys2 s2 hL
    refine ⟨sessionExtends_trans hext1 hext3, fun s3 h3 => ?_⟩
    have hT2 := hrr1 s3 (sessionExtends_trans hext3 h3)
    have hL2 := hrr3 s3 h3
    simp only [resolveL_cons, hT2, hL2]
    rw [← hy]

/-- C7: resolution is deterministic across repeated runs in the same
session — if resolving a tree from session `s` succeeds with value `v` and
session `s1`, then resolving the same tree again from `s1` yields exactly
the same value `v` and leaves the session at `s1` (the second pass finds
every export record the first pass allocated).  Resolution itself visits
the tree depth-first, left-to-right, in key insertion order by
construction of `resolveL`/`resolveM`. -/
theorem c7_resolve_deterministic (prods : Prods) (env : Nat → Nat) (cu : Nat)
    (om : Bool) (s : Session) (t : Tree) (v : Tree) (s1 : Session)
    (h : resolveT prods env cu om [] s t = .ok (v, s1)) :
    resolveT prods env cu om [] s1 t = .ok (v, s1) :=
  (resolveT_rerun prods env cu om [] s t v s1 h).2 s1 (sessionExtends_refl s1)

/-- A concrete unit assignment: entity 7 lives in unit 1, everything else
in unit 2. -/
def envU7 : Nat → Nat := fun e => if e = 7 then 1 else 2

/-- Witness for C7: a concrete cross-unit tree resolved twice from the
same session yields byte-identical output. -/
theorem c7_witness :
    resolveT [] envU7 2 false [] ⟨[], []⟩ (.seq [.attr 7]) =
      .ok (.seq [.importExpr 1 0], ⟨[((1, 7), 0)], [(2, 1)]⟩) ∧
    resolveT [] envU7 2 false [] ⟨[((1, 7), 0)], [(2, 1)]⟩ (.seq [.attr 7]) =
      .ok (.seq [.importExpr 1 0], ⟨[((1, 7), 0)], [(2, 1)]⟩) := by
  have hne : ¬ envU7 7 = 2 := by decide
  have h : resolveT [] envU7 2 false [] ⟨[], []⟩ (.seq [.attr 7]) =
      .ok (.seq [.importExpr 1 0], ⟨[((1, 7), 0)], [(2, 1)]⟩) := by
    simp only [resolveT_seq, resolveL_cons, resolveL_nil, resolveT_attr_cross hne,
      requestExport, addDep, alookup, insertIfAbsent]
    simp [envU7]
  exact ⟨h, c7_resolve_deterministic [] envU7 2 false
    ⟨[], []⟩ (.seq [.attr 7]) (.seq [.importExpr 1 0]) ⟨[((1, 7), 0)], [(2, 1)]⟩ h⟩


/-- Syntactic occurrence of a placeholder id in a tree. -/
inductive OccursIn : Nat → Tree → Prop where
  | ph (id : Nat) : OccursIn id (.ph id)
  | seqMem {id : Nat} {x : Tree} {xs : List Tree} :
      OccursIn id x → x ∈ xs → OccursIn id (.seq xs)
  | mapMem {id : Nat} {k : String} {v : Tree} {kvs : List (String × Tree)} :
      OccursIn id v → (k, v) ∈ kvs → OccursIn id (.map kvs)

/-- The producer chain starting from a tree reaches a placeholder id:
either the id occurs in the tree, or some placeholder occurring in the
tree is registered and its producer result reaches the id. -/
inductive Reaches (prods : Prods) : Tree → Nat → Prop where
  | here {t : Tree} {id : Nat} : OccursIn id t → Reaches prods t id
  | step {t : Tree} {q : Nat} {hb : String × Tree} {id : Nat} :
      OccursIn q t → lookupProd prods q = some hb →
      Reaches prods hb.2 id → Reaches prods t id

theorem occursIn_ph_inv {q id : Nat} (h : OccursIn q (.ph id)) : q = id := by
  cases h; rfl

theorem reaches_of_mem_seq {prods : Prods} {x : Tree} {q : Nat} {xs : List Tree}
    (hx : x ∈ xs) (h : Reaches prods x q) : Reaches prods (.seq xs) q := by
  cases h with
  | here ho => exact .here (.seqMem ho hx)
  | step ho hl hr => exact .step (.seqMem ho hx) hl hr

theorem reaches_of_mem_map {prods : Prods} {k : String} {v : Tree} {q : Nat}
    {kvs : List (String × Tree)} (hkv : (k, v) ∈ kvs) (h : Reaches prods v q) :
    Reaches prods (.map kvs) q := by
  cases h with
  | here ho => exact .here (.mapMem ho hkv)
  | step ho hl hr => exact .step (.mapMem ho hkv) hl hr

theorem resolveT_ok_sub (prods : Prods) (env : Nat → Nat) (cu : Nat) (om : Bool)
    (r : List Nat) (s : Session) (t : Tree) :
    ∀ v s1, resolveT prods env cu om r s t = .ok (v, s1) →
      ∀ q, OccursIn q t →
        ∃ hb, lookupProd prods q = some hb ∧
          ∃ pre s2 v2 s3, q ∉ pre ++ r ∧
            resolveT prods env cu om (q :: (pre ++ r)) s2 hb.2 = .ok (v2, s3) := by
  refine resolveT.induct prods env cu om
    (fun r s t => ∀ v s1, resolveT prods env cu om r s t = .ok (v, s1) →
      ∀ q, OccursIn q t →
        ∃ hb, lookupProd prods q = some hb ∧
          ∃ pre s2 v2 s3, q ∉ pre ++ r ∧
            resolveT prods env cu om (q :: (pre ++ r)) s2 hb.2 = .ok (v2, s3))
    (fun r s kvs => ∀ ys s1, resolveM prods env cu om r s kvs = .ok (ys, s1) →
      ∀ q kv, kv ∈ kvs → OccursIn q (Prod.snd kv) →
        ∃ hb, lookupProd prods q = some hb ∧
          ∃ pre s2 v2 s3, q ∉ pre ++ r ∧
            resolveT prods env cu om (q :: (pre ++ r)) s2 hb.2 = .ok (v2, s3))
    (fun r s xs => ∀ ys s1, resolveL prods env cu om r s xs = .ok (ys, s1) →
      ∀ q x, x ∈ xs → OccursIn q x →
        ∃ hb, lookupProd prods q = some hb ∧
          ∃ pre s2 v2 s3, q ∉ pre ++ r ∧
            resolveT prods env cu om (q :: (pre ++ r)) s2 hb.2 = .ok (v2, s3))
    ?_ ?_ ?_ ?_ ?_ ?_ ?_ ?_ ?_ ?_ ?_ ?_ ?_ ?_ ?_ ?_ ?_ ?_ ?_ ?_ ?_ ?_ ?_ ?_ ?_ r s t
  · intro r s v0 v s1 _ q ho
    cases ho
  · intro r s n v s1 _ q ho
    cases ho
  · intro r s b v s1 _ q ho
    cases ho
  · intro r s v s1 _ q ho
    cases ho
  · intro r s v s1 _ q ho
    cases ho
  · intro r s e v s1 _ q ho
    cases ho
  · intro r s u n v s1 _ q ho
    cases ho
  · intro r s id hid v s1 h q ho
    rw [resolveT_ph_cycle hid] at h
    simp at h
  · intro r s id hid hl v s1 h q ho
    rw [resolveT_ph_missing hid hl] at h
    simp at h
  · intro r s id hid hb hl _ v s1 h q ho
    rw [resolveT_ph_found hid hl] at h
    have hq : q = id := occursIn_ph_inv ho
    subst hq
    refine ⟨hb, hl, [], s, v, s1, ?_, ?_⟩
    · simpa using hid
    · simpa using h
  · intro r s e _ v s1 _ q ho
    cases ho
  · intro r s e _ v s1 _ q ho
    cases ho
  · intro r s xs e hL _ v s1 h q ho
    simp only [resolveT_seq, hL] at h
    simp at h
  · intro r s xs ys s1 hL ih v s1b h q ho
    cases ho with
    | seqMem ho2 hx => exact ih ys s1 hL q _ hx ho2
  · intro r s kvs e hM _ v s1 h q ho
    simp only [resolveT_map, hM] at h
    simp at h
  · intro r s kvs ys s1 hM ih v s1b h q ho
    cases ho with
    | mapMem ho2 hkv => exact ih ys s1 hM q _ hkv ho2
  · intro r s ys s1 _ q kv hkv _
    simp at hkv
  · intro r s k v kvs e hT _ ys s1 h q kv hkv ho
    simp only [resolveM_cons, hT] at h
    simp at h
  · intro r s k v kvs y s1 hT e hM _ _ ys s1b h q kv hkv ho
    simp only [resolveM_cons, hT, hM] at h
    simp at h
  · intro r s k v kvs y s1 hT ys2 s2 hM hcond ih1 ih2 ys s1b h q kv hkv ho
    rcases List.mem_cons.mp hkv with hkv | hkv
    · subst hkv
      exact ih1 y s1 hT q ho
    · exact ih2 ys2 s2 hM q kv hkv ho
  · intro r s k v kvs y s1 hT ys2 s2 hM hcond ih1 ih2 ys s1b h q kv hkv ho
    rcases List.mem_cons.mp hkv with hkv | hkv
    · subst hkv
      exact ih1 y s1 hT q ho
    · exact ih2 ys2 s2 hM q kv hkv ho
  · intro r s ys s1 _ q x hx _
    simp at hx
  · intro r s x xs e hT _ ys s1 h q x2 hx ho
    simp only [resolveL_cons, hT] at h
    simp at h
  · intro r s x xs y s1 hT e hL _ _ ys s1b h q x2 hx ho
    simp only [resolveL_cons, hT, hL] at h
    simp at h
  · intro r s x xs y s1 hT ys2 s2 hL ih1 ih3 ys s1b h q x2 hx ho
    rcases List.mem_cons.mp hx with hx | hx
    · subst hx
      exact ih1 y s1 hT q ho
    · exact ih3 ys2 s2 hL q x2 hx ho


theorem resolveT_reach_not_ok (prods : Prods) (env : Nat → Nat) (cu : Nat)
    (om : Bool) {t : Tree} {P : Nat} (hreach : Reaches prods t P) :
    ∀ r s v s1, P ∈ r → resolveT prods env cu om r s t ≠ .ok (v, s1) := by
  induction hreach with
  | here ho =>
    intro r s v s1 hP h
    obtain ⟨hb, hl, pre, s2, v2, s3, hnotin, _⟩ :=
      resolveT_ok_sub prods env cu om r s _ v s1 h _ ho
    exact hnotin (List.mem_append_right pre hP)
  | step ho hl hr ih =>
    intro r s v s1 hP h
    obtain ⟨hb2, hl2, pre, s2, v2, s3, hnotin, hok⟩ :=
      resolveT_ok_sub prods env cu om r s _ v s1 h _ ho
    rw [hl] at hl2
    have hbeq := Option.some_inj.mp hl2
    rw [← hbeq] at hok
    exact ih (_ :: (pre ++ r)) s2 v2 s3
      (List.mem_cons_of_mem _ (List.mem_append_right pre hP)) hok

theorem resolveT_closed_cycle (prods : Prods) (env : Nat → Nat) (cu : Nat)
    (om : Bool) (r : List Nat) (s : Session) (t : Tree) :
    (∀ q, Reaches prods t q → (lookupProd prods q).isSome) →
    (∃ v s1, resolveT prods env cu om r s t = .ok (v, s1)) ∨
    (∃ q pre, resolveT prods env cu om r s t =
      .error (.cycle (q :: (pre ++ r)) (hintsOf prods (q :: (pre ++ r))))) := by
  refine resolveT.induct prods env cu om
    (fun r s t => (∀ q, Reaches prods t q → (lookupProd prods q).isSome) →
      (∃ v s1, resolveT prods env cu om r s t = .ok (v, s1)) ∨
      (∃ q pre, resolveT prods env cu om r s t =
        .error (.cycle (q :: (pre ++ r)) (hintsOf prods (q :: (pre ++ r))))))
    (fun r s kvs => (∀ q, (∃ kv ∈ kvs, Reaches prods (Prod.snd kv) q) →
        (lookupProd prods q).isSome) →
      (∃ ys s1, resolveM prods env cu om r s kvs = .ok (ys, s1)) ∨
      (∃ q pre, resolveM prods env cu om r s kvs =
        .error (.cycle (q :: (pre ++ r)) (hintsOf prods (q :: (pre ++ r))))))
    (fun r s xs => (∀ q, (∃ x ∈ xs, Reaches prods x q) →
        (lookupProd prods q).isSome) →
      (∃ ys s1, resolveL prods env cu om r s xs = .ok (ys, s1)) ∨
      (∃ q pre, resolveL prods env cu om r s xs =
        .error (.cycle (q :: (pre ++ r)) (hintsOf prods (q :: (pre ++ r))))))
    ?_ ?_ ?_ ?_ ?_ ?_ ?_ ?_ ?_ ?_ ?_ ?_ ?_ ?_ ?_ ?_ ?_ ?_ ?_ ?_ ?_ ?_ ?_ ?_ ?_ r s t
  · intro r s v0 _
    exact Or.inl ⟨_, _, resolveT_str⟩
  · intro r s n _
    exact Or.inl ⟨_, _, resolveT_num⟩
  · intro r s b _
    exact Or.inl ⟨_, _, resolveT_bool⟩
  · intro r s _
    exact Or.inl ⟨_, _, resolveT_null⟩
  · intro r s _
    exact Or.inl ⟨_, _, resolveT_undef⟩
  · intro r s e _
    exact Or.inl ⟨_, _, resolveT_localId⟩
  · intro r s u n _
    exact Or.inl ⟨_, _, resolveT_importExpr⟩
  · intro r s id hid _
    refine Or.inr ⟨id, [], ?_⟩
    simpa using resolveT_ph_cycle hid
  · intro r s id hid hl hcl
    have := hcl id (.here (.ph id))
    rw [hl] at this
    simp at this
  · intro r s id hid hb hl ih hcl
    have hcl2 : ∀ q, Reaches prods hb.2 q → (lookupProd prods q).isSome := by
      intro q hq
      exact hcl q (.step (.ph id) hl hq)
    rcases ih hcl2 with ⟨v, s1, hok⟩ | ⟨q, pre, herr⟩
    · exact Or.inl ⟨v, s1, by rw [resolveT_ph_found hid hl]; exact hok⟩
    · refine Or.inr ⟨q, pre ++ [id], ?_⟩
      rw [resolveT_ph_found hid hl, herr]
      have hre : pre ++ id :: r = (pre ++ [id]) ++ r := by simp
      rw [hre]
  · intro r s e he _
    exact Or.inl ⟨_, _, resolveT_attr_local he⟩
  · intro r s e he _
    exact Or.inl ⟨_, _, resolveT_attr_cross he⟩
  · intro r s xs e hL ih hcl
    have hcl3 : ∀ q, (∃ x ∈ xs, Reaches prods x q) → (lookupProd prods q).isSome := by
      rintro q ⟨x, hx, hq⟩
      exact hcl q (reaches_of_mem_seq hx hq)
    rcases ih hcl3 with ⟨ys, s1, hok⟩ | ⟨q, pre, herr⟩
    · rw [hL] at hok
      simp at hok
    · rw [hL] at herr
      refine Or.inr ⟨q, pre, ?_⟩
      simp only [resolveT_seq, hL, herr]
  · intro r s xs ys s1 hL _ _
    exact Or.inl ⟨.seq ys, s1, by simp only [resolveT_seq, hL]⟩
  · intro r s kvs e hM ih hcl
    have hcl2 : ∀ q, (∃ kv ∈ kvs, Reaches prods (Prod.snd kv) q) →
        (lookupProd prods q).isSome := by
      rintro q ⟨kv, hkv, hq⟩
      exact hcl q (reaches_of_mem_map (by exact hkv) hq)
    rcases ih hcl2 with ⟨ys, s1, hok⟩ | ⟨q, pre, herr⟩
    · rw [hM] at hok
      simp at hok
    · rw [hM] at herr
      refine Or.inr ⟨q, pre, ?_⟩
      simp only [resolveT_map, hM, herr]
  · intro r s kvs ys s1 hM _ _
    exact Or.inl ⟨.map ys, s1, by simp only [resolveT_map, hM]⟩
  · intro r s _
    exact Or.inl ⟨_, _, resolveM_nil⟩
  · intro r s k v kvs e hT ih1 hcl
    have hcl1 : ∀ q, Reaches prods v q → (lookupProd prods q).isSome := by
      intro q hq
      exact hcl q ⟨(k, v), List.mem_cons_self _ _, hq⟩
    rcases ih1 hcl1 with ⟨y, s1, hok⟩ | ⟨q, pre, herr⟩
    · rw [hT] at hok
      simp at hok
    · rw [hT] at herr
      refine Or.inr ⟨q, pre, ?_⟩
      simp only [resolveM_cons, hT, herr]
  · intro r s k v kvs y s1 hT e hM ih1 ih2 hcl
    have hcl2 : ∀ q, (∃ kv ∈ kvs, Reaches prods (Prod.snd kv) q) →
        (lookupProd prods q).isSome := by
      rintro q ⟨kv, hkv, hq⟩
      exact hcl q ⟨kv, List.mem_cons_of_mem _ hkv, hq⟩
    rcases ih2 hcl2 with ⟨ys, s2, hok⟩ | ⟨q, pre, herr⟩
    · rw [hM] at hok
      simp at hok
    · rw [hM] at herr
      refine Or.inr ⟨q, pre, ?_⟩
      simp only [resolveM_cons, hT, hM, herr]
  · intro r s k v kvs y s1 hT ys2 s2 hM hcond _ _ _
    exact Or.inl ⟨ys2, s2, by simp only [resolveM_cons, hT, hM, if_pos hcond]⟩
  · intro r s k v kvs y s1 hT ys2 s2 hM hcond _ _ _
    exact Or.inl ⟨(k, y) :: ys2, s2, by simp only [resolveM_cons, hT, hM, if_neg hcond]⟩
  · intro r s _
    exact Or.inl ⟨_, _, resolveL_nil⟩
  · intro r s x xs e hT ih1 hcl
    have hcl1 : ∀ q, Reaches prods x q → (lookupProd prods q).isSome := by
      intro q hq
      exact hcl q ⟨x, List.mem_cons_self _ _, hq⟩
    rcases ih1 hcl1 with ⟨y, s1, hok⟩ | ⟨q, pre, herr⟩
    · rw [hT] at hok
      simp at hok
    · rw [hT] at herr
      refine Or.inr ⟨q, pre, ?_⟩
      simp only [resolveL_cons, hT, herr]
  · intro r s x xs y s1 hT e hL ih1 ih3 hcl
    have hcl3 : ∀ q, (∃ x2 ∈ xs, Reaches prods x2 q) → (lookupProd prods q).isSome := by
      rintro q ⟨x2, hx2, hq⟩
      exact hcl q ⟨x2, List.mem_cons_of_mem _ hx2, hq⟩
    rcases ih3 hcl3 with ⟨ys, s2, hok⟩ | ⟨q, pre, herr⟩
    · rw [hL] at hok
      simp at hok
    · rw [hL] at herr
      refine Or.inr ⟨q, pre, ?_⟩
      simp only [resolveL_cons, hT, hL, herr]
  · intro r s x xs y s1 hT ys2 s2 hL _ _ _
    exact Or.inl ⟨y :: ys2, s2, by simp only [resolveL_cons, hT, hL]⟩


/-- C5: a registered placeholder `P` whose producer chain reaches `P`
again (including a producer body containing `P` itself) makes resolution
of `P` fail with a `CycleError` whose message carries the chain of
placeholder display hints, and whose id chain contains `P` (the chain ends
in `[P]`).  The hypothesis that every id reachable from the producer is
registered rules out the unrelated missing-placeholder error.  That
resolution can neither overflow nor loop is the totality of `resolveT`
itself, and detection is by the threaded currently-resolving set `r`, not
a depth limit — the definition carries no fuel. -/
theorem c5_cycle_detection (prods : Prods) (env : Nat → Nat) (cu : Nat)
    (om : Bool) (s : Session) (P : Nat) (hb : String × Tree)
    (hP : lookupProd prods P = some hb)
    (hreach : Reaches prods hb.2 P)
    (hclosed : ∀ q, Reaches prods (.ph P) q → (lookupProd prods q).isSome) :
    ∃ q pre, resolveT prods env cu om [] s (.ph P) =
      .error (.cycle (q :: (pre ++ [P])) (hintsOf prods (q :: (pre ++ [P])))) := by
  have hnotin : P ∉ ([] : List Nat) := by simp
  have hclosed2 : ∀ q, Reaches prods hb.2 q → (lookupProd prods q).isSome :=
    fun q hq => hclosed q (.step (.ph P) hP hq)
  rcases resolveT_closed_cycle prods env cu om [P] s hb.2 hclosed2 with
    ⟨v, s1, hok⟩ | ⟨q, pre, herr⟩
  · exact absurd hok
      (resolveT_reach_not_ok prods env cu om hreach [P] s v s1 (by simp))
  · refine ⟨q, pre, ?_⟩
    rw [resolveT_ph_found hnotin hP]
    exact herr

/-- Witness for C5: the one-entry registry whose placeholder 1 produces a
tree containing placeholder 1 itself fails with a cycle error naming the
chain. -/
theorem c5_witness :
    ∃ q pre, resolveT [⟨1, "p1", Tree.ph 1⟩] (fun _ => 0) 0 false [] ⟨[], []⟩
        (.ph 1) =
      .error (.cycle (q :: (pre ++ [1]))
        (hintsOf [⟨1, "p1", Tree.ph 1⟩] (q :: (pre ++ [1])))) := by
  have hlv : lookupProd [⟨1, "p1", Tree.ph 1⟩] 1 = some ("p1", Tree.ph 1) := rfl
  have key : ∀ (t : Tree) (q : Nat), Reaches [⟨1, "p1", Tree.ph 1⟩] t q →
      (∀ q2, OccursIn q2 t → q2 = 1) →
      (lookupProd [⟨1, "p1", Tree.ph 1⟩] q).isSome := by
    intro t q h
    induction h with
    | here ho =>
      intro hall
      rw [hall _ ho, hlv]
      rfl
    | step ho hl hr ih =>
      intro hall
      have hq1 := hall _ ho
      rw [hq1, hlv] at hl
      have hb1 := Option.some_inj.mp hl
      apply ih
      intro q2 ho2
      rw [← hb1] at ho2
      exact occursIn_ph_inv ho2
  exact c5_cycle_detection [⟨1, "p1", Tree.ph 1⟩] (fun _ => 0) 0 false ⟨[], []⟩ 1
    ("p1", Tree.ph 1) hlv (.here (.ph 1))
    (fun q hq => key _ q hq (fun q2 ho2 => occursIn_ph_inv ho2))

end RB

end Spec2Proof
